import Mathlib

/-!
# Typed Resource Crawler — verification development

Shallow embedding of the generic FHIR resource tree crawler
(`crawlResource` / `ResourceCrawler` / `getNestedProperty`) together with
theorems settling the specification's testable properties.

The crawler walks an in-memory typed clinical-record value according to its
declared schema, depth-first, invoking a visitor's lifecycle callbacks.
The Schema Provider (`getDataType`, `getTypedPropertyValue`) and the small
utility discriminators (`isResource`, `isLowerCase`, `arrayify`) are external
collaborators of this component; they are modelled from the specification and
kept abstract (an explicit environment) wherever the spec leaves them open.

The embedding is fuel-indexed: the source's recursion is bounded only by the
schema graph, so a `fuel : Nat` argument makes the Lean functions total.
Running out of fuel is reported as a distinguished abort, never silently
conflated with genuine termination.
-/

/-- A runtime (already parsed) JSON-like value.  The crawler itself only ever
inspects a value through the resource discriminator; properties are accessed
through the Schema Provider's accessor. -/
inductive JsValue where
  | prim (s : String)
  | arr (elems : List JsValue)
  | obj (fields : List (String × JsValue))

/-- A pair of declared type name and runtime value (`TypedValue` in the
source): every value flowing through the crawler carries its resolved
concrete type alongside the raw value. -/
structure TypedValue where
  type : String
  value : JsValue

/-- A single resolved property value as returned by the Schema Provider's
accessor: either one scalar `TypedValue` or an array of them
(`TypedValue | TypedValue[]` in the source). -/
inductive PropValue where
  | single (tv : TypedValue)
  | multiple (tvs : List TypedValue)

/-- One element of a resolution result: `TypedValue | TypedValue[] | undefined`
in the source; `none` is JavaScript `undefined`. -/
abbrev PropElem := Option PropValue

/-- Modelled from the spec: an element descriptor of the schema —
`{ path, type, min, max }` with `max` either a bound (`some n`) or
unbounded (`none`).  `max = some 0` denotes a property the spec calls
forbidden on this type. -/
structure InternalSchemaElement where
  path : String
  type : List String
  min : Nat
  max : Option Nat

/-- Modelled from the spec: a structural schema — an ordered mapping from
property key to element descriptor.  The association list preserves the
schema's declared key order, which is what `Object.keys(schema.elements)`
iterates in the source. -/
structure InternalTypeSchema where
  name : String
  elements : List (String × InternalSchemaElement)

/-- Modelled from the spec: the resource discriminator `isResource` — a
runtime value is a top-level resource when it is an object carrying a
`resourceType` field. -/
def isResource : JsValue → Bool
  | .obj fields => fields.any fun kv => kv.fst == "resourceType"
  | _ => false

/-- Modelled from the spec: `isLowerCase` on a character — the
primitive-type discriminator; type names beginning with a lower-case letter
denote FHIR primitives. -/
def isLowerCase (c : Char) : Bool := c.isLower

/-- `isLowerCase(s.charAt(0))` in the source: tests whether the first
character of the type name is a lower-case letter; an empty type name is not
lower-case (matching the JavaScript semantics of `charAt(0)` on `""`). -/
def firstCharLower (s : String) : Bool :=
  match s.data with
  | [] => false
  | c :: _ => isLowerCase c

/-- Modelled from the spec: `arrayify` — wraps a scalar into a one-element
array and returns an array unchanged. -/
def arrayify : PropValue → List TypedValue
  | .single tv => [tv]
  | .multiple tvs => tvs

/-- Modelled from the spec: the Schema Provider, the crawler's external
collaborator.  `getDataType` resolves a type name to its schema (`none`
models the source's thrown "unknown data type" error) and
`getTypedPropertyValue` is the property-value accessor
(`TypedValue | TypedValue[] | undefined`), with an optional profile URL. -/
structure CrawlEnv where
  getDataType : String → Option InternalTypeSchema
  getTypedPropertyValue : TypedValue → String → Option String → PropElem

/-- `key.split('.')` from the source, written by structural recursion over
the characters so that it evaluates definitionally: splits at every dot and
always yields at least one (possibly empty) segment, exactly as the
JavaScript `split` does. -/
def splitDotAux : List Char → List Char → List String
  | [], acc => [String.mk acc.reverse]
  | c :: rest, acc =>
    if c = '.' then String.mk acc.reverse :: splitDotAux rest []
    else splitDotAux rest (c :: acc)

/-- `key.split('.')`: the list of dot-separated segments of the key. -/
def splitDot (s : String) : List String := splitDotAux s.data []

/-- `getNestedProperty` from the source: resolves a possibly dotted key
against a TypedValue.  `"$this"` is the identity; a dotted key is resolved
segment by segment, left to right, flattening one level of array nesting and
dropping `undefined` intermediate results. -/
def getNestedProperty (env : CrawlEnv) (value : TypedValue) (key : String)
    (profileUrl : Option String) : List PropElem :=
  if key = "$this" then
    [some (PropValue.single value)]
  else
    match splitDot key with
    | [] => []
    | firstProp :: nestedProps =>
      nestedProps.foldl
        (fun propertyValues prop =>
          propertyValues.foldl
            (fun next current =>
              match current with
              | some (PropValue.multiple elems) =>
                next ++ elems.map fun element => env.getTypedPropertyValue element prop profileUrl
              | some (PropValue.single tv) =>
                next ++ [env.getTypedPropertyValue tv prop profileUrl]
              | none => next)
            [])
        [env.getTypedPropertyValue value firstProp profileUrl]

/-- The two nested loops at the end of `crawlProperty`: skip `undefined`
entries (the truthiness guard) and splice each remaining entry through
`arrayify`, yielding the flat list of values the crawler descends into. -/
def collectValues : List PropElem → List TypedValue
  | [] => []
  | none :: rest => collectValues rest
  | some pv :: rest => arrayify pv ++ collectValues rest

/-- Errors a crawl can surface: `visitorError` is an exception thrown by a
visitor callback (payload preserved); `unknownType` is the Schema Provider
failing to resolve a type name; `outOfFuel` is the embedding's recursion
bound, not a behaviour of the source. -/
inductive CrawlErr (ε : Type) where
  | outOfFuel
  | unknownType (name : String)
  | visitorError (e : ε)

/-- The crawler's effect: callbacks mutate caller-owned accumulator state
`σ` and may throw `ε`.  The state is retained on an abort so that the
callbacks already performed remain observable. -/
abbrev CrawlM (σ ε : Type) := σ → σ × Option (CrawlErr ε)

/-- The no-op crawl step. -/
def CrawlM.pure {σ ε : Type} : CrawlM σ ε := fun s => (s, none)

/-- Sequencing of crawl steps: the second runs only when the first did not
abort. -/
def CrawlM.andThen {σ ε : Type} (m₁ m₂ : CrawlM σ ε) : CrawlM σ ε := fun s =>
  match m₁ s with
  | (s₁, none) => m₂ s₁
  | (s₁, some e) => (s₁, some e)

/-- The visitor: the five optional lifecycle callbacks, exactly the source's
`ResourceVisitor` interface.  A callback reads the accumulator state and
returns the new state plus an optional thrown error. -/
structure ResourceVisitor (σ ε : Type) where
  onEnterObject : Option (String → TypedValue → InternalTypeSchema → σ → σ × Option ε)
  onExitObject : Option (String → TypedValue → InternalTypeSchema → σ → σ × Option ε)
  onEnterResource : Option (String → TypedValue → InternalTypeSchema → σ → σ × Option ε)
  onExitResource : Option (String → TypedValue → InternalTypeSchema → σ → σ × Option ε)
  visitProperty : Option (TypedValue → String → String → List PropElem → InternalTypeSchema → σ → σ × Option ε)

/-- Invoke an optional object-lifecycle callback (the source's
`if (this.visitor.onX) this.visitor.onX(...)`); a thrown error becomes a
`visitorError` abort. -/
def callObjCB {σ ε : Type}
    (cb : Option (String → TypedValue → InternalTypeSchema → σ → σ × Option ε))
    (path : String) (obj : TypedValue) (schema : InternalTypeSchema) : CrawlM σ ε :=
  match cb with
  | none => CrawlM.pure
  | some f => fun s =>
    match f path obj schema s with
    | (s₁, none) => (s₁, none)
    | (s₁, some e) => (s₁, some (CrawlErr.visitorError e))

/-- Invoke the optional `visitProperty` callback. -/
def callVisitPropCB {σ ε : Type}
    (cb : Option (TypedValue → String → String → List PropElem → InternalTypeSchema → σ → σ × Option ε))
    (parent : TypedValue) (key : String) (path : String) (values : List PropElem)
    (schema : InternalTypeSchema) : CrawlM σ ε :=
  match cb with
  | none => CrawlM.pure
  | some f => fun s =>
    match f parent key path values schema s with
    | (s₁, none) => (s₁, none)
    | (s₁, some e) => (s₁, some (CrawlErr.visitorError e))

/-- `ResourceCrawler.crawlPropertyValue`, one recursion level: a value whose
type name starts lower-case is a primitive leaf and is skipped; otherwise the
value's schema is looked up and the crawl descends (`rec`). -/
def crawlPropertyValueF {σ ε : Type} (env : CrawlEnv)
    (rec : TypedValue → InternalTypeSchema → String → CrawlM σ ε)
    (value : TypedValue) (path : String) : CrawlM σ ε :=
  if firstCharLower value.type then CrawlM.pure
  else
    match env.getDataType value.type with
    | none => fun s => (s, some (CrawlErr.unknownType value.type))
    | some type => rec value type path

/-- The inner loop of `crawlProperty`: crawl each collected value in order. -/
def crawlValuesF {σ ε : Type} (env : CrawlEnv)
    (rec : TypedValue → InternalTypeSchema → String → CrawlM σ ε)
    (values : List TypedValue) (path : String) : CrawlM σ ε :=
  match values with
  | [] => CrawlM.pure
  | value :: rest =>
    CrawlM.andThen (crawlPropertyValueF env rec value path)
      (crawlValuesF env rec rest path)

/-- `ResourceCrawler.crawlProperty`: resolve the key, hand the raw resolved
list to `visitProperty`, then descend into each defined value. -/
def crawlPropertyF {σ ε : Type} (env : CrawlEnv) (v : ResourceVisitor σ ε)
    (rec : TypedValue → InternalTypeSchema → String → CrawlM σ ε)
    (parent : TypedValue) (key : String) (schema : InternalTypeSchema)
    (path : String) : CrawlM σ ε :=
  let propertyValues := getNestedProperty env parent key none
  CrawlM.andThen (callVisitPropCB v.visitProperty parent key path propertyValues schema)
    (crawlValuesF env rec (collectValues propertyValues) path)

/-- The key loop of `crawlObject`: crawl every declared property, in the
schema's declared key order, extending the path with `"." ++ key`. -/
def crawlPropertiesF {σ ε : Type} (env : CrawlEnv) (v : ResourceVisitor σ ε)
    (rec : TypedValue → InternalTypeSchema → String → CrawlM σ ε)
    (obj : TypedValue) (schema : InternalTypeSchema) (path : String)
    (keys : List String) : CrawlM σ ε :=
  match keys with
  | [] => CrawlM.pure
  | key :: rest =>
    CrawlM.andThen (crawlPropertyF env v rec obj key schema (path ++ "." ++ key))
      (crawlPropertiesF env v rec obj schema path rest)

/-- `ResourceCrawler.crawlObject`, one recursion level: resource bracket,
object bracket, then every declared property in order. -/
def crawlObjectF {σ ε : Type} (env : CrawlEnv) (v : ResourceVisitor σ ε)
    (rec : TypedValue → InternalTypeSchema → String → CrawlM σ ε)
    (obj : TypedValue) (schema : InternalTypeSchema) (path : String) : CrawlM σ ε :=
  let objIsResource := isResource obj.value
  CrawlM.andThen
    (if objIsResource then callObjCB v.onEnterResource path obj schema else CrawlM.pure)
    (CrawlM.andThen (callObjCB v.onEnterObject path obj schema)
      (CrawlM.andThen
        (crawlPropertiesF env v rec obj schema path (schema.elements.map Prod.fst))
        (CrawlM.andThen (callObjCB v.onExitObject path obj schema)
          (if objIsResource then callObjCB v.onExitResource path obj schema
           else CrawlM.pure))))

/-- The fuel-indexed crawler: ties the recursive knot of `crawlObject`.
`fuel` bounds the object-nesting depth the crawl may descend through. -/
def crawlObject {σ ε : Type} (env : CrawlEnv) (v : ResourceVisitor σ ε) :
    Nat → TypedValue → InternalTypeSchema → String → CrawlM σ ε
  | 0, _, _, _ => fun s => (s, some CrawlErr.outOfFuel)
  | fuel + 1, obj, schema, path =>
    crawlObjectF env v (fun o sc p => crawlObject env v fuel o sc p) obj schema path

/-- `ResourceCrawler.crawlProperty` at a given fuel. -/
def crawlProperty {σ ε : Type} (env : CrawlEnv) (v : ResourceVisitor σ ε) (fuel : Nat)
    (parent : TypedValue) (key : String) (schema : InternalTypeSchema)
    (path : String) : CrawlM σ ε :=
  crawlPropertyF env v (fun o sc p => crawlObject env v fuel o sc p) parent key schema path

/-- `ResourceCrawler.crawlPropertyValue` at a given fuel. -/
def crawlPropertyValue {σ ε : Type} (env : CrawlEnv) (v : ResourceVisitor σ ε) (fuel : Nat)
    (value : TypedValue) (path : String) : CrawlM σ ε :=
  crawlPropertyValueF env (fun o sc p => crawlObject env v fuel o sc p) value path

/-- Modelled from the spec: reads the resource-type discriminator off a
runtime value (`resource.resourceType`). -/
def resourceTypeOf : JsValue → Option String
  | .obj fields =>
    match fields.lookup "resourceType" with
    | some (.prim s) => some s
    | _ => none
  | _ => none

/-- Modelled from the spec: `toTypedValue` on the root — wraps the root
resource as a TypedValue whose declared type is its resource-type
discriminator. -/
def toTypedValue (v : JsValue) : TypedValue :=
  { type := (resourceTypeOf v).getD "", value := v }

/-- `crawlResource`: the caller-facing entry point.  The schema defaults to
the Schema Provider's lookup of the root's resource type, the initial path to
the resource type itself. -/
def crawlResource {σ ε : Type} (env : CrawlEnv) (v : ResourceVisitor σ ε) (fuel : Nat)
    (resource : JsValue) (schema : Option InternalTypeSchema)
    (initialPath : Option String) : CrawlM σ ε := fun s =>
  let rt := (resourceTypeOf resource).getD ""
  match (match schema with | some sc => some sc | none => env.getDataType rt) with
  | none => (s, some (CrawlErr.unknownType rt))
  | some sc => crawlObject env v fuel (toTypedValue resource) sc ((initialPath).getD rt) s

/-! ## Trace semantics

The traversal path of the crawler never depends on what the callbacks do:
which callbacks fire, in which order and with which arguments is a pure
function of the environment, the value and the schema.  `objTrace` computes
that sequence of callback invocations (the crawl's *trace*) together with
the abort, if any; the agreement theorem below proves it coincides with
running `crawlObject` under an event-recording visitor. -/

/-- One callback invocation, with the arguments it received. -/
inductive Event where
  | enterResource (path : String) (value : TypedValue)
  | enterObject (path : String) (value : TypedValue)
  | exitObject (path : String) (value : TypedValue)
  | exitResource (path : String) (value : TypedValue)
  | visitProp (parent : TypedValue) (key : String) (path : String) (values : List PropElem)

/-- Aborts of a trace: no visitor is involved, so only the Schema Provider
failure and the embedding's fuel bound remain. -/
abbrev TraceAbort := CrawlErr Empty

/-- Trace of `crawlPropertyValue`, one recursion level. -/
def valueTraceF (env : CrawlEnv)
    (rec : TypedValue → InternalTypeSchema → String → List Event × Option TraceAbort)
    (value : TypedValue) (path : String) : List Event × Option TraceAbort :=
  if firstCharLower value.type then ([], none)
  else
    match env.getDataType value.type with
    | none => ([], some (CrawlErr.unknownType value.type))
    | some type => rec value type path

/-- Trace of the inner value loop of `crawlProperty`. -/
def valuesTraceF (env : CrawlEnv)
    (rec : TypedValue → InternalTypeSchema → String → List Event × Option TraceAbort)
    (values : List TypedValue) (path : String) : List Event × Option TraceAbort :=
  match values with
  | [] => ([], none)
  | value :: rest =>
    match valueTraceF env rec value path with
    | (t, some a) => (t, some a)
    | (t, none) =>
      match valuesTraceF env rec rest path with
      | (t₂, r) => (t ++ t₂, r)

/-- Trace of `crawlProperty`: the `visitProperty` invocation followed by the
descent into the collected values. -/
def propTraceF (env : CrawlEnv)
    (rec : TypedValue → InternalTypeSchema → String → List Event × Option TraceAbort)
    (parent : TypedValue) (key : String) (path : String) :
    List Event × Option TraceAbort :=
  let propertyValues := getNestedProperty env parent key none
  match valuesTraceF env rec (collectValues propertyValues) path with
  | (t, r) => (Event.visitProp parent key path propertyValues :: t, r)

/-- Trace of the key loop of `crawlObject`. -/
def propsTraceF (env : CrawlEnv)
    (rec : TypedValue → InternalTypeSchema → String → List Event × Option TraceAbort)
    (obj : TypedValue) (path : String) (keys : List String) :
    List Event × Option TraceAbort :=
  match keys with
  | [] => ([], none)
  | key :: rest =>
    match propTraceF env rec obj key (path ++ "." ++ key) with
    | (t, some a) => (t, some a)
    | (t, none) =>
      match propsTraceF env rec obj path rest with
      | (t₂, r) => (t ++ t₂, r)

/-- Trace of `crawlObject`, one recursion level. -/
def objTraceF (env : CrawlEnv)
    (rec : TypedValue → InternalTypeSchema → String → List Event × Option TraceAbort)
    (obj : TypedValue) (schema : InternalTypeSchema) (path : String) :
    List Event × Option TraceAbort :=
  let objIsResource := isResource obj.value
  let head :=
    (if objIsResource then [Event.enterResource path obj] else []) ++
      [Event.enterObject path obj]
  match propsTraceF env rec obj path (schema.elements.map Prod.fst) with
  | (t, some a) => (head ++ t, some a)
  | (t, none) =>
    (head ++ t ++ [Event.exitObject path obj] ++
      (if objIsResource then [Event.exitResource path obj] else []), none)

/-- The fuel-indexed trace of a crawl rooted at one object node. -/
def objTrace (env : CrawlEnv) :
    Nat → TypedValue → InternalTypeSchema → String → List Event × Option TraceAbort
  | 0, _, _, _ => ([], some CrawlErr.outOfFuel)
  | fuel + 1, obj, schema, path =>
    objTraceF env (fun o sc p => objTrace env fuel o sc p) obj schema path

/-- Trace of `crawlProperty` at a given fuel. -/
def propTrace (env : CrawlEnv) (fuel : Nat) (parent : TypedValue) (key : String)
    (path : String) : List Event × Option TraceAbort :=
  propTraceF env (fun o sc p => objTrace env fuel o sc p) parent key path

/-- The visitor that records every callback invocation as an `Event`,
throwing nothing: its run exhibits exactly *when and with what arguments*
each callback is invoked. -/
def traceVisitor : ResourceVisitor (List Event) Empty where
  onEnterObject := some fun path obj _ s => (s ++ [Event.enterObject path obj], none)
  onExitObject := some fun path obj _ s => (s ++ [Event.exitObject path obj], none)
  onEnterResource := some fun path obj _ s => (s ++ [Event.enterResource path obj], none)
  onExitResource := some fun path obj _ s => (s ++ [Event.exitResource path obj], none)
  visitProperty := some fun parent key path values _ s =>
    (s ++ [Event.visitProp parent key path values], none)

/-- A callback of the budgeted throwing visitor: records its event while the
budget lasts and throws the fixed error `e` once the budget hits zero. -/
def throwCB {ε : Type} (e : ε) (ev : Event) :
    Nat × List Event → (Nat × List Event) × Option ε
  | (0, t) => ((0, t), some e)
  | (n + 1, t) => ((n, t ++ [ev]), none)

/-- The visitor whose `n`-th callback invocation (counting from zero after a
budget of `n`) throws `e`: used to show a thrown error aborts the crawl at
exactly that point and propagates unchanged. -/
def throwingVisitor {ε : Type} (e : ε) : ResourceVisitor (Nat × List Event) ε where
  onEnterObject := some fun path obj _ => throwCB e (Event.enterObject path obj)
  onExitObject := some fun path obj _ => throwCB e (Event.exitObject path obj)
  onEnterResource := some fun path obj _ => throwCB e (Event.enterResource path obj)
  onExitResource := some fun path obj _ => throwCB e (Event.exitResource path obj)
  visitProperty := some fun parent key path values _ =>
    throwCB e (Event.visitProp parent key path values)

/-! ## Agreement between the crawler and its trace semantics -/

/-- A crawl computation under the event-recording visitor agrees with a
trace when, from any start state, it appends exactly the trace's events and
reports the trace's abort. -/
def Agrees (m : CrawlM (List Event) Empty) (t : List Event × Option TraceAbort) : Prop :=
  ∀ s, m s = (s ++ t.1, t.2)

theorem agrees_pure : Agrees CrawlM.pure ([], none) := by
  intro s; simp [CrawlM.pure]

theorem agrees_err {a : TraceAbort} :
    Agrees (fun s => (s, some a)) ([], some a) := by
  intro s; simp

theorem agrees_andThen {m₁ m₂ : CrawlM (List Event) Empty} {t₁ : List Event}
    {t₂ : List Event × Option TraceAbort} (h₁ : Agrees m₁ (t₁, none))
    (h₂ : Agrees m₂ t₂) :
    Agrees (CrawlM.andThen m₁ m₂) (t₁ ++ t₂.1, t₂.2) := by
  intro s
  simp only [CrawlM.andThen, h₁ s, h₂ (s ++ t₁), List.append_assoc]

theorem agrees_andThen_abort {m₁ : CrawlM (List Event) Empty}
    (m₂ : CrawlM (List Event) Empty) {t₁ : List Event}
    {a : TraceAbort} (h₁ : Agrees m₁ (t₁, some a)) :
    Agrees (CrawlM.andThen m₁ m₂) (t₁, some a) := by
  intro s
  simp only [CrawlM.andThen, h₁ s]

theorem agrees_enterObject (path : String) (obj : TypedValue) (schema : InternalTypeSchema) :
    Agrees (callObjCB traceVisitor.onEnterObject path obj schema)
      ([Event.enterObject path obj], none) := fun _ => rfl

theorem agrees_exitObject (path : String) (obj : TypedValue) (schema : InternalTypeSchema) :
    Agrees (callObjCB traceVisitor.onExitObject path obj schema)
      ([Event.exitObject path obj], none) := fun _ => rfl

theorem agrees_enterResource (path : String) (obj : TypedValue) (schema : InternalTypeSchema) :
    Agrees (callObjCB traceVisitor.onEnterResource path obj schema)
      ([Event.enterResource path obj], none) := fun _ => rfl

theorem agrees_exitResource (path : String) (obj : TypedValue) (schema : InternalTypeSchema) :
    Agrees (callObjCB traceVisitor.onExitResource path obj schema)
      ([Event.exitResource path obj], none) := fun _ => rfl

theorem agrees_visitProp (parent : TypedValue) (key path : String)
    (values : List PropElem) (schema : InternalTypeSchema) :
    Agrees (callVisitPropCB traceVisitor.visitProperty parent key path values schema)
      ([Event.visitProp parent key path values], none) := fun _ => rfl

theorem agreesValueF (env : CrawlEnv)
    {mrec : TypedValue → InternalTypeSchema → String → CrawlM (List Event) Empty}
    {rec : TypedValue → InternalTypeSchema → String → List Event × Option TraceAbort}
    (hrec : ∀ o sc p, Agrees (mrec o sc p) (rec o sc p))
    (value : TypedValue) (path : String) :
    Agrees (crawlPropertyValueF env mrec value path) (valueTraceF env rec value path) := by
  unfold crawlPropertyValueF valueTraceF
  by_cases h : firstCharLower value.type = true
  · simp only [h, if_true]; exact agrees_pure
  · simp only [Bool.not_eq_true] at h
    simp only [h, Bool.false_eq_true, if_false]
    cases env.getDataType value.type with
    | none => exact agrees_err
    | some type => exact hrec value type path

theorem agreesValuesF (env : CrawlEnv)
    {mrec : TypedValue → InternalTypeSchema → String → CrawlM (List Event) Empty}
    {rec : TypedValue → InternalTypeSchema → String → List Event × Option TraceAbort}
    (hrec : ∀ o sc p, Agrees (mrec o sc p) (rec o sc p))
    (values : List TypedValue) (path : String) :
    Agrees (crawlValuesF env mrec values path) (valuesTraceF env rec values path) := by
  induction values with
  | nil => exact agrees_pure
  | cons value rest ih =>
    have h₁ := agreesValueF env hrec value path
    cases hv : valueTraceF env rec value path with
    | mk t r =>
      rw [hv] at h₁
      cases r with
      | some a =>
        simp only [crawlValuesF, valuesTraceF, hv]
        exact agrees_andThen_abort _ h₁
      | none =>
        simp only [crawlValuesF, valuesTraceF, hv]
        cases hrest : valuesTraceF env rec rest path with
        | mk t₂ r₂ =>
          have h₂ := ih
          rw [hrest] at h₂
          exact agrees_andThen h₁ h₂

theorem agreesPropF (env : CrawlEnv)
    {mrec : TypedValue → InternalTypeSchema → String → CrawlM (List Event) Empty}
    {rec : TypedValue → InternalTypeSchema → String → List Event × Option TraceAbort}
    (hrec : ∀ o sc p, Agrees (mrec o sc p) (rec o sc p))
    (parent : TypedValue) (key : String) (schema : InternalTypeSchema) (path : String) :
    Agrees (crawlPropertyF env traceVisitor mrec parent key schema path)
      (propTraceF env rec parent key path) := by
  have h₂ := agreesValuesF env hrec (collectValues (getNestedProperty env parent key none)) path
  have h := agrees_andThen
    (agrees_visitProp parent key path (getNestedProperty env parent key none) schema) h₂
  intro s
  have hs := h s
  simpa [crawlPropertyF, propTraceF] using hs

theorem agreesPropsF (env : CrawlEnv)
    {mrec : TypedValue → InternalTypeSchema → String → CrawlM (List Event) Empty}
    {rec : TypedValue → InternalTypeSchema → String → List Event × Option TraceAbort}
    (hrec : ∀ o sc p, Agrees (mrec o sc p) (rec o sc p))
    (obj : TypedValue) (schema : InternalTypeSchema) (path : String) (keys : List String) :
    Agrees (crawlPropertiesF env traceVisitor mrec obj schema path keys)
      (propsTraceF env rec obj path keys) := by
  induction keys with
  | nil => exact agrees_pure
  | cons key rest ih =>
    have h₁ := agreesPropF env hrec obj key schema (path ++ "." ++ key)
    cases hp : propTraceF env rec obj key (path ++ "." ++ key) with
    | mk t r =>
      rw [hp] at h₁
      cases r with
      | some a =>
        simp only [crawlPropertiesF, propsTraceF, hp]
        exact agrees_andThen_abort _ h₁
      | none =>
        simp only [crawlPropertiesF, propsTraceF, hp]
        cases hrest : propsTraceF env rec obj path rest with
        | mk t₂ r₂ =>
          have h₂ := ih
          rw [hrest] at h₂
          exact agrees_andThen h₁ h₂

theorem agreesObjF (env : CrawlEnv)
    {mrec : TypedValue → InternalTypeSchema → String → CrawlM (List Event) Empty}
    {rec : TypedValue → InternalTypeSchema → String → List Event × Option TraceAbort}
    (hrec : ∀ o sc p, Agrees (mrec o sc p) (rec o sc p))
    (obj : TypedValue) (schema : InternalTypeSchema) (path : String) :
    Agrees (crawlObjectF env traceVisitor mrec obj schema path)
      (objTraceF env rec obj schema path) := by
  unfold crawlObjectF objTraceF
  have hprops := agreesPropsF env hrec obj schema path (schema.elements.map Prod.fst)
  cases hp : propsTraceF env rec obj path (schema.elements.map Prod.fst) with
  | mk t r =>
    rw [hp] at hprops
    by_cases hres : isResource obj.value = true
    · simp only [hres, if_true]
      cases r with
      | some a =>
        have h := agrees_andThen (agrees_enterResource path obj schema)
          (agrees_andThen (agrees_enterObject path obj schema)
            (agrees_andThen_abort (CrawlM.andThen
              (callObjCB traceVisitor.onExitObject path obj schema)
              (callObjCB traceVisitor.onExitResource path obj schema)) hprops))
        simpa using h
      | none =>
        have h := agrees_andThen (agrees_enterResource path obj schema)
          (agrees_andThen (agrees_enterObject path obj schema)
            (agrees_andThen hprops
              (agrees_andThen (agrees_exitObject path obj schema)
                (agrees_exitResource path obj schema))))
        simpa using h
    · simp only [Bool.not_eq_true] at hres
      simp only [hres, Bool.false_eq_true, if_false]
      cases r with
      | some a =>
        have h := agrees_andThen agrees_pure
          (agrees_andThen (agrees_enterObject path obj schema)
            (agrees_andThen_abort (CrawlM.andThen
              (callObjCB traceVisitor.onExitObject path obj schema) CrawlM.pure) hprops))
        simpa using h
      | none =>
        have h := agrees_andThen agrees_pure
          (agrees_andThen (agrees_enterObject path obj schema)
            (agrees_andThen hprops
              (agrees_andThen (agrees_exitObject path obj schema) agrees_pure)))
        simpa using h

/-- Agreement: running the crawler under the event-recording visitor appends
exactly the events of `objTrace` to the accumulator and reports the same
abort.  The trace semantics is therefore a faithful account of when and with
what arguments the crawler invokes its callbacks. -/
theorem crawlObject_agrees (env : CrawlEnv) (fuel : Nat) :
    ∀ obj schema path,
      Agrees (crawlObject env traceVisitor fuel obj schema path)
        (objTrace env fuel obj schema path) := by
  induction fuel with
  | zero => intro obj schema path s; simp [crawlObject, objTrace]
  | succ n ih =>
    intro obj schema path
    exact agreesObjF env (fun o sc p => ih o sc p) obj schema path

/-! ## Property path resolution -/

/-- C9: resolving the key `"$this"` on any TypedValue returns a one-element
sequence whose sole element is exactly that TypedValue, unchanged. -/
theorem thisKey_resolves_to_self (env : CrawlEnv) (v : TypedValue)
    (profileUrl : Option String) :
    getNestedProperty env v "$this" profileUrl = [some (PropValue.single v)] := rfl

/-- Written from the spec's words (§4.1, property path resolution): one
step of compound-key resolution takes the values yielded so far, drops
`undefined` results, flattens exactly one level of array nesting, and
resolves the next segment against every survivor. -/
def specResolveStep (env : CrawlEnv) (profileUrl : Option String)
    (vals : List PropElem) (prop : String) : List PropElem :=
  ((vals.filterMap id).flatMap arrayify).map
    fun tv => env.getTypedPropertyValue tv prop profileUrl

/-- Written from the spec's words: a dotted compound key is resolved
iteratively left to right — resolve the first segment, then fold every
remaining segment through `specResolveStep`, accumulating results; the final
output is not flattened at the last segment. -/
def specResolveCompound (env : CrawlEnv) (value : TypedValue)
    (segs : List String) (profileUrl : Option String) : List PropElem :=
  match segs with
  | [] => []
  | first :: rest =>
    rest.foldl (specResolveStep env profileUrl)
      [env.getTypedPropertyValue value first profileUrl]

theorem innerFold_eq_specStep (env : CrawlEnv) (profileUrl : Option String)
    (prop : String) :
    ∀ (vals : List PropElem) (acc : List PropElem),
      vals.foldl
        (fun next current =>
          match current with
          | some (PropValue.multiple elems) =>
            next ++ elems.map fun element => env.getTypedPropertyValue element prop profileUrl
          | some (PropValue.single tv) =>
            next ++ [env.getTypedPropertyValue tv prop profileUrl]
          | none => next)
        acc
      = acc ++ specResolveStep env profileUrl vals prop := by
  intro vals
  induction vals with
  | nil => intro acc; simp [specResolveStep]
  | cons current rest ih =>
    intro acc
    cases current with
    | none => simp [List.foldl_cons, ih, specResolveStep]
    | some pv =>
      cases pv with
      | single tv => simp [List.foldl_cons, ih, specResolveStep, arrayify]
      | multiple elems => simp [List.foldl_cons, ih, specResolveStep, arrayify]

/-- C5: for every key other than `"$this"`, `getNestedProperty` computes
exactly the spec's left-to-right iterative resolution of the dot-separated
segments: each step flattens one level of array nesting, drops `undefined`
intermediate results, and the last segment's output is not flattened. -/
theorem getNestedProperty_eq_specResolve (env : CrawlEnv) (v : TypedValue)
    (key : String) (profileUrl : Option String) (hkey : key ≠ "$this") :
    getNestedProperty env v key profileUrl
      = specResolveCompound env v (splitDot key) profileUrl := by
  unfold getNestedProperty
  rw [if_neg hkey]
  cases hsplit : splitDot key with
  | nil => simp [specResolveCompound]
  | cons first rest =>
    simp only [specResolveCompound]
    have hstep :
        (fun (propertyValues : List PropElem) (prop : String) =>
          propertyValues.foldl
            (fun next current =>
              match current with
              | some (PropValue.multiple elems) =>
                next ++ elems.map fun element => env.getTypedPropertyValue element prop profileUrl
              | some (PropValue.single tv) =>
                next ++ [env.getTypedPropertyValue tv prop profileUrl]
              | none => next)
            [])
        = specResolveStep env profileUrl := by
      funext vals prop
      rw [innerFold_eq_specStep env profileUrl prop vals []]
      simp
    rw [hstep]

/-- Witness for C5 at a concrete input: the dotted key `"a.b"` on a concrete
environment, with the hypothesis `"a.b" ≠ "$this"` discharged there. -/
theorem getNestedProperty_eq_specResolve_witness :
    ("a.b" : String) ≠ "$this" ∧
      getNestedProperty
          ⟨fun _ => none, fun tv k _ =>
            if tv.type = "X" ∧ k = "a" then some (PropValue.single ⟨"Y", JsValue.prim "y"⟩)
            else if tv.type = "Y" ∧ k = "b" then some (PropValue.single ⟨"string", JsValue.prim "z"⟩)
            else none⟩
          ⟨"X", JsValue.prim "x"⟩ "a.b" none
        = specResolveCompound
            ⟨fun _ => none, fun tv k _ =>
              if tv.type = "X" ∧ k = "a" then some (PropValue.single ⟨"Y", JsValue.prim "y"⟩)
              else if tv.type = "Y" ∧ k = "b" then some (PropValue.single ⟨"string", JsValue.prim "z"⟩)
              else none⟩
            ⟨"X", JsValue.prim "x"⟩ (splitDot "a.b") none :=
  ⟨by decide, getNestedProperty_eq_specResolve _ _ _ _ (by decide)⟩

/-! ## Missing properties (resolution gaps) -/

theorem collectValues_eq_nil {l : List PropElem} (h : ∀ pv ∈ l, pv = none) :
    collectValues l = [] := by
  induction l with
  | nil => rfl
  | cons pv rest ih =>
    have hpv : pv = none := h pv (List.mem_cons_self pv rest)
    subst hpv
    exact ih fun pv hm => h pv (List.mem_cons_of_mem _ hm)

/-- C7: when every resolution result for a key is `undefined`,
`visitProperty` still fires exactly once for that key, receiving the raw
resolved list (empty after filtering out `undefined`); no recursive descent
occurs for that key and no error is raised. -/
theorem missing_property_no_descent (env : CrawlEnv) (fuel : Nat)
    (parent : TypedValue) (key : String) (schema : InternalTypeSchema) (path : String)
    (h : ∀ pv ∈ getNestedProperty env parent key none, pv = none) :
    crawlProperty env traceVisitor fuel parent key schema path []
      = ([Event.visitProp parent key path (getNestedProperty env parent key none)], none) := by
  have hcv := collectValues_eq_nil h
  simp [crawlProperty, crawlPropertyF, hcv, crawlValuesF, CrawlM.andThen, CrawlM.pure,
    callVisitPropCB, traceVisitor]

/-! ## Per-event invariants of a crawl

`EvOk` collects what is true of each single callback invocation of a crawl
rooted at `root`: every entered object other than the root has a
non-primitive (capitalized) type name, and every `visitProperty` invocation
receives exactly the resolution result of its key.  `EvOkStrict` is the same
with no exemption for the root; it holds of all events strictly inside the
property loop. -/

def EvOk (env : CrawlEnv) (root : TypedValue) : Event → Prop
  | Event.enterObject _ v => v = root ∨ firstCharLower v.type = false
  | Event.visitProp parent key _ values => values = getNestedProperty env parent key none
  | _ => True

def EvOkStrict (env : CrawlEnv) : Event → Prop
  | Event.enterObject _ v => firstCharLower v.type = false
  | Event.visitProp parent key _ values => values = getNestedProperty env parent key none
  | _ => True

theorem evOkStrict_imp (env : CrawlEnv) (root : TypedValue) (e : Event)
    (h : EvOkStrict env e) : EvOk env root e := by
  cases e with
  | enterObject p v => exact Or.inr h
  | visitProp parent key p values => exact h
  | enterResource p v => trivial
  | exitObject p v => trivial
  | exitResource p v => trivial

theorem evOk_to_strict (env : CrawlEnv) {root : TypedValue}
    (hl : firstCharLower root.type = false) (e : Event) (h : EvOk env root e) :
    EvOkStrict env e := by
  cases e with
  | enterObject p v =>
    cases h with
    | inl hv => rw [hv]; exact hl
    | inr hv => exact hv
  | visitProp parent key p values => exact h
  | enterResource p v => trivial
  | exitObject p v => trivial
  | exitResource p v => trivial

theorem evOkValueF (env : CrawlEnv)
    {rec : TypedValue → InternalTypeSchema → String → List Event × Option TraceAbort}
    (hrec : ∀ o sc p, ∀ e ∈ (rec o sc p).1, EvOk env o e)
    (value : TypedValue) (path : String) :
    ∀ e ∈ (valueTraceF env rec value path).1, EvOkStrict env e := by
  intro e he
  unfold valueTraceF at he
  cases hl : firstCharLower value.type with
  | true => simp [hl] at he
  | false =>
    rw [hl] at he
    simp only [Bool.false_eq_true, if_false] at he
    cases hd : env.getDataType value.type with
    | none => rw [hd] at he; simp at he
    | some sc =>
      rw [hd] at he
      exact evOk_to_strict env hl e (hrec value sc path e he)

theorem evOkValuesF (env : CrawlEnv)
    {rec : TypedValue → InternalTypeSchema → String → List Event × Option TraceAbort}
    (hrec : ∀ o sc p, ∀ e ∈ (rec o sc p).1, EvOk env o e)
    (values : List TypedValue) (path : String) :
    ∀ e ∈ (valuesTraceF env rec values path).1, EvOkStrict env e := by
  induction values with
  | nil => intro e he; simp [valuesTraceF] at he
  | cons value rest ih =>
    intro e he
    cases hv : valueTraceF env rec value path with
    | mk t r =>
      have h₁ : ∀ e ∈ t, EvOkStrict env e := by
        intro x hx
        exact evOkValueF env hrec value path x (by rw [hv]; exact hx)
      cases r with
      | some a =>
        simp only [valuesTraceF, hv] at he
        exact h₁ e he
      | none =>
        simp only [valuesTraceF, hv] at he
        rcases List.mem_append.mp he with hmem | hmem
        · exact h₁ e hmem
        · exact ih e hmem

theorem evOkPropF (env : CrawlEnv)
    {rec : TypedValue → InternalTypeSchema → String → List Event × Option TraceAbort}
    (hrec : ∀ o sc p, ∀ e ∈ (rec o sc p).1, EvOk env o e)
    (parent : TypedValue) (key : String) (path : String) :
    ∀ e ∈ (propTraceF env rec parent key path).1, EvOkStrict env e := by
  intro e he
  have hsplit :
      (propTraceF env rec parent key path).1
        = Event.visitProp parent key path (getNestedProperty env parent key none) ::
            (valuesTraceF env rec (collectValues (getNestedProperty env parent key none)) path).1 := by
    simp [propTraceF]
  rw [hsplit] at he
  rcases List.mem_cons.mp he with hmem | hmem
  · rw [hmem]; rfl
  · exact evOkValuesF env hrec _ path e hmem

theorem evOkPropsF (env : CrawlEnv)
    {rec : TypedValue → InternalTypeSchema → String → List Event × Option TraceAbort}
    (hrec : ∀ o sc p, ∀ e ∈ (rec o sc p).1, EvOk env o e)
    (obj : TypedValue) (path : String) (keys : List String) :
    ∀ e ∈ (propsTraceF env rec obj path keys).1, EvOkStrict env e := by
  induction keys with
  | nil => intro e he; simp [propsTraceF] at he
  | cons key rest ih =>
    intro e he
    cases hp : propTraceF env rec obj key (path ++ "." ++ key) with
    | mk t r =>
      have h₁ : ∀ e ∈ t, EvOkStrict env e := by
        intro x hx
        exact evOkPropF env hrec obj key (path ++ "." ++ key) x (by rw [hp]; exact hx)
      cases r with
      | some a =>
        simp only [propsTraceF, hp] at he
        exact h₁ e he
      | none =>
        simp only [propsTraceF, hp] at he
        rcases List.mem_append.mp he with hmem | hmem
        · exact h₁ e hmem
        · exact ih e hmem

theorem evOkObjF (env : CrawlEnv)
    {rec : TypedValue → InternalTypeSchema → String → List Event × Option TraceAbort}
    (hrec : ∀ o sc p, ∀ e ∈ (rec o sc p).1, EvOk env o e)
    (obj : TypedValue) (schema : InternalTypeSchema) (path : String) :
    ∀ e ∈ (objTraceF env rec obj schema path).1, EvOk env obj e := by
  intro e he
  have hprops := evOkPropsF env hrec obj path (schema.elements.map Prod.fst)
  cases hp : propsTraceF env rec obj path (schema.elements.map Prod.fst) with
  | mk t r =>
    rw [hp] at hprops
    cases r with
    | some a =>
      simp only [objTraceF, hp] at he
      rcases List.mem_append.mp he with hmem | hmem
      · rcases List.mem_append.mp hmem with hh | hh
        · cases hres : isResource obj.value <;> rw [hres] at hh <;> simp at hh <;> rw [hh] <;> trivial
        · rcases List.mem_singleton.mp hh with rfl
          exact Or.inl rfl
      · exact evOkStrict_imp env obj e (hprops e hmem)
    | none =>
      simp only [objTraceF, hp] at he
      rcases List.mem_append.mp he with hmem | hmem
      · rcases List.mem_append.mp hmem with hmem₂ | hmem₂
        · rcases List.mem_append.mp hmem₂ with hmem₃ | hmem₃
          · rcases List.mem_append.mp hmem₃ with hh | hh
            · cases hres : isResource obj.value <;> rw [hres] at hh <;> simp at hh <;> rw [hh] <;> trivial
            · rcases List.mem_singleton.mp hh with rfl
              exact Or.inl rfl
          · exact evOkStrict_imp env obj e (hprops e hmem₃)
        · rcases List.mem_singleton.mp hmem₂ with rfl
          trivial
      · cases hres : isResource obj.value <;> rw [hres] at hmem <;> simp at hmem
        rw [hmem]; trivial

theorem evOk_objTrace (env : CrawlEnv) (fuel : Nat) :
    ∀ obj schema path, ∀ e ∈ (objTrace env fuel obj schema path).1, EvOk env obj e := by
  induction fuel with
  | zero => intro obj schema path e he; simp [objTrace] at he
  | succ n ih =>
    intro obj schema path e he
    exact evOkObjF env (fun o sc p => ih o sc p) obj schema path e he

/-- The crawler under the event-recording visitor, started from the empty
accumulator, computes exactly the trace semantics. -/
theorem crawlRun_eq (env : CrawlEnv) (fuel : Nat) (obj : TypedValue)
    (schema : InternalTypeSchema) (path : String) :
    crawlObject env traceVisitor fuel obj schema path []
      = ((objTrace env fuel obj schema path).1, (objTrace env fuel obj schema path).2) := by
  have h := crawlObject_agrees env fuel obj schema path []
  simpa using h

/-- C4: a resolved property value whose type name begins with a lower-case
letter (a FHIR primitive) is a leaf — the crawler never invokes
`onEnterObject` for it and never descends into it.  Every object entered
during a crawl is either the root of the crawl or has a capitalized
(non-primitive) type name. -/
theorem primitive_values_never_entered (env : CrawlEnv) (fuel : Nat)
    (obj : TypedValue) (schema : InternalTypeSchema) (path : String)
    (p : String) (v : TypedValue)
    (h : Event.enterObject p v ∈ (crawlObject env traceVisitor fuel obj schema path []).1) :
    v = obj ∨ firstCharLower v.type = false := by
  rw [crawlRun_eq] at h
  exact evOk_objTrace env fuel obj schema path _ h

/-- C8: `visitProperty` always receives the full resolved sequence exactly
as produced by property resolution (`getNestedProperty`), never
pre-flattened to a single value, even when exactly one value resolves. -/
theorem visitProperty_receives_raw_resolution (env : CrawlEnv) (fuel : Nat)
    (obj : TypedValue) (schema : InternalTypeSchema) (path : String)
    (parent : TypedValue) (key p : String) (vals : List PropElem)
    (h : Event.visitProp parent key p vals ∈ (crawlObject env traceVisitor fuel obj schema path []).1) :
    vals = getNestedProperty env parent key none := by
  rw [crawlRun_eq] at h
  exact evOk_objTrace env fuel obj schema path _ h

/-! ## Property-key order at one object node

`topVisitKeys` extracts, from a trace, the keys of the `visitProperty`
invocations that happen directly at the root object of the trace (depth 1:
inside the root's enter/exit bracket but not inside any nested object). -/

def topVisitKeysAux : List Event → Nat → List String
  | [], _ => []
  | Event.enterObject _ _ :: rest, d => topVisitKeysAux rest (d + 1)
  | Event.exitObject _ _ :: rest, d => topVisitKeysAux rest (d - 1)
  | Event.visitProp _ key _ _ :: rest, d =>
    if d = 1 then key :: topVisitKeysAux rest d else topVisitKeysAux rest d
  | _ :: rest, d => topVisitKeysAux rest d

def topVisitKeys (t : List Event) : List String := topVisitKeysAux t 0

theorem tvk_enterResource (p : String) (v : TypedValue) (l : List Event) (d : Nat) :
    topVisitKeysAux (Event.enterResource p v :: l) d = topVisitKeysAux l d := rfl

theorem tvk_exitResource (p : String) (v : TypedValue) (l : List Event) (d : Nat) :
    topVisitKeysAux (Event.exitResource p v :: l) d = topVisitKeysAux l d := rfl

theorem tvk_enterObject (p : String) (v : TypedValue) (l : List Event) (d : Nat) :
    topVisitKeysAux (Event.enterObject p v :: l) d = topVisitKeysAux l (d + 1) := rfl

theorem tvk_exitObject (p : String) (v : TypedValue) (l : List Event) (d : Nat) :
    topVisitKeysAux (Event.exitObject p v :: l) d = topVisitKeysAux l (d - 1) := rfl

theorem tvk_visitProp (parent : TypedValue) (key p : String) (vals : List PropElem)
    (l : List Event) (d : Nat) :
    topVisitKeysAux (Event.visitProp parent key p vals :: l) d
      = if d = 1 then key :: topVisitKeysAux l d else topVisitKeysAux l d := rfl

theorem tvkValueF (env : CrawlEnv)
    {rec : TypedValue → InternalTypeSchema → String → List Event × Option TraceAbort}
    (hrec : ∀ o sc p, (rec o sc p).2 = none →
      ∀ d rest, topVisitKeysAux ((rec o sc p).1 ++ rest) (d + 1) = topVisitKeysAux rest (d + 1))
    (value : TypedValue) (path : String)
    (hok : (valueTraceF env rec value path).2 = none) (d : Nat) (rest : List Event) :
    topVisitKeysAux ((valueTraceF env rec value path).1 ++ rest) (d + 1)
      = topVisitKeysAux rest (d + 1) := by
  unfold valueTraceF at hok ⊢
  cases hl : firstCharLower value.type with
  | true => simp
  | false =>
    rw [hl] at hok
    simp only [Bool.false_eq_true, if_false] at hok ⊢
    cases hd : env.getDataType value.type with
    | none => rw [hd] at hok; simp at hok
    | some sc =>
      rw [hd] at hok
      exact hrec value sc path hok d rest

theorem tvkValuesF (env : CrawlEnv)
    {rec : TypedValue → InternalTypeSchema → String → List Event × Option TraceAbort}
    (hrec : ∀ o sc p, (rec o sc p).2 = none →
      ∀ d rest, topVisitKeysAux ((rec o sc p).1 ++ rest) (d + 1) = topVisitKeysAux rest (d + 1))
    (values : List TypedValue) (path : String)
    (hok : (valuesTraceF env rec values path).2 = none) (d : Nat) (rest : List Event) :
    topVisitKeysAux ((valuesTraceF env rec values path).1 ++ rest) (d + 1)
      = topVisitKeysAux rest (d + 1) := by
  induction values generalizing rest with
  | nil => simp [valuesTraceF]
  | cons value vrest ih =>
    cases hv : valueTraceF env rec value path with
    | mk t r =>
      cases r with
      | some a => simp [valuesTraceF, hv] at hok
      | none =>
        have h₁ := tvkValueF env hrec value path (by rw [hv])
        rw [hv] at h₁
        cases hvs : valuesTraceF env rec vrest path with
        | mk t₂ r₂ =>
          have hok₂ : r₂ = none := by
            simp only [valuesTraceF, hv, hvs] at hok
            exact hok
          simp only [valuesTraceF, hv, hvs, List.append_assoc]
          rw [h₁ d (t₂ ++ rest)]
          have h₂ := ih (by rw [hvs]; exact hok₂) rest
          rw [hvs] at h₂
          exact h₂

theorem tvkPropF (env : CrawlEnv)
    {rec : TypedValue → InternalTypeSchema → String → List Event × Option TraceAbort}
    (hrec : ∀ o sc p, (rec o sc p).2 = none →
      ∀ d rest, topVisitKeysAux ((rec o sc p).1 ++ rest) (d + 1) = topVisitKeysAux rest (d + 1))
    (parent : TypedValue) (key : String) (path : String)
    (hok : (propTraceF env rec parent key path).2 = none) (d : Nat) (rest : List Event) :
    topVisitKeysAux ((propTraceF env rec parent key path).1 ++ rest) (d + 1)
      = (if d = 0 then [key] else []) ++ topVisitKeysAux rest (d + 1) := by
  have hsplit :
      (propTraceF env rec parent key path).1
        = Event.visitProp parent key path (getNestedProperty env parent key none) ::
            (valuesTraceF env rec (collectValues (getNestedProperty env parent key none)) path).1 := by
    simp [propTraceF]
  have hok₂ : (valuesTraceF env rec (collectValues (getNestedProperty env parent key none)) path).2 = none := by
    simpa [propTraceF] using hok
  rw [hsplit, List.cons_append, tvk_visitProp]
  cases d with
  | zero =>
    simp only [if_pos rfl, reduceIte]
    rw [tvkValuesF env hrec _ path hok₂ 0 rest]
    simp
  | succ d₁ =>
    have : ¬ (d₁ + 1 + 1 = 1) := by omega
    rw [if_neg this]
    rw [tvkValuesF env hrec _ path hok₂ (d₁ + 1) rest]
    simp

theorem tvkPropsF (env : CrawlEnv)
    {rec : TypedValue → InternalTypeSchema → String → List Event × Option TraceAbort}
    (hrec : ∀ o sc p, (rec o sc p).2 = none →
      ∀ d rest, topVisitKeysAux ((rec o sc p).1 ++ rest) (d + 1) = topVisitKeysAux rest (d + 1))
    (obj : TypedValue) (path : String) (keys : List String)
    (hok : (propsTraceF env rec obj path keys).2 = none) (d : Nat) (rest : List Event) :
    topVisitKeysAux ((propsTraceF env rec obj path keys).1 ++ rest) (d + 1)
      = (if d = 0 then keys else []) ++ topVisitKeysAux rest (d + 1) := by
  induction keys generalizing rest with
  | nil => cases d <;> simp [propsTraceF]
  | cons key krest ih =>
    cases hp : propTraceF env rec obj key (path ++ "." ++ key) with
    | mk t r =>
      cases r with
      | some a => simp [propsTraceF, hp] at hok
      | none =>
        have h₁ := tvkPropF env hrec obj key (path ++ "." ++ key) (by rw [hp])
        rw [hp] at h₁
        cases hps : propsTraceF env rec obj path krest with
        | mk t₂ r₂ =>
          have hok₂ : r₂ = none := by
            simp only [propsTraceF, hp, hps] at hok
            exact hok
          simp only [propsTraceF, hp, hps, List.append_assoc]
          rw [h₁ d (t₂ ++ rest)]
          have h₂ := ih (by rw [hps]; exact hok₂) rest
          rw [hps] at h₂
          rw [h₂]
          cases d with
          | zero => simp
          | succ d₁ => simp

theorem tvkObjF (env : CrawlEnv)
    {rec : TypedValue → InternalTypeSchema → String → List Event × Option TraceAbort}
    (hrec : ∀ o sc p, (rec o sc p).2 = none →
      ∀ d rest, topVisitKeysAux ((rec o sc p).1 ++ rest) (d + 1) = topVisitKeysAux rest (d + 1))
    (obj : TypedValue) (schema : InternalTypeSchema) (path : String)
    (hok : (objTraceF env rec obj schema path).2 = none) (d : Nat) (rest : List Event) :
    topVisitKeysAux ((objTraceF env rec obj schema path).1 ++ rest) (d + 1)
      = topVisitKeysAux rest (d + 1) := by
  cases hp : propsTraceF env rec obj path (schema.elements.map Prod.fst) with
  | mk t r =>
    cases r with
    | some a => simp [objTraceF, hp] at hok
    | none =>
      have htvk := tvkPropsF env hrec obj path (schema.elements.map Prod.fst) (by rw [hp])
      rw [hp] at htvk
      cases hres : isResource obj.value with
      | true =>
        simp only [objTraceF, hp, hres, if_true, List.append_assoc, List.cons_append,
          List.singleton_append, List.nil_append]
        rw [tvk_enterResource, tvk_enterObject]
        rw [htvk (d + 1) (Event.exitObject path obj :: Event.exitResource path obj :: rest)]
        rw [tvk_exitObject]
        simp only [Nat.add_sub_cancel, Nat.succ_ne_zero, if_false, List.nil_append]
        rw [tvk_exitResource]
      | false =>
        simp only [objTraceF, hp, hres, Bool.false_eq_true, if_false, List.append_assoc,
          List.cons_append, List.singleton_append, List.nil_append, List.append_nil]
        rw [tvk_enterObject]
        rw [htvk (d + 1) (Event.exitObject path obj :: rest)]
        rw [tvk_exitObject]
        simp only [Nat.add_sub_cancel, Nat.succ_ne_zero, if_false, List.nil_append]

theorem tvkObjTrace (env : CrawlEnv) (fuel : Nat) :
    ∀ obj schema path, (objTrace env fuel obj schema path).2 = none →
      ∀ d rest, topVisitKeysAux ((objTrace env fuel obj schema path).1 ++ rest) (d + 1)
        = topVisitKeysAux rest (d + 1) := by
  induction fuel with
  | zero => intro obj schema path hok; simp [objTrace] at hok
  | succ n ih =>
    intro obj schema path hok d rest
    exact tvkObjF env (fun o sc p => ih o sc p) obj schema path hok d rest

theorem topKeys_of_objTrace (env : CrawlEnv) (fuel : Nat) (obj : TypedValue)
    (schema : InternalTypeSchema) (path : String)
    (hok : (objTrace env fuel obj schema path).2 = none) :
    topVisitKeys (objTrace env fuel obj schema path).1 = schema.elements.map Prod.fst := by
  cases fuel with
  | zero => simp [objTrace] at hok
  | succ n =>
    cases hp : propsTraceF env (fun o sc p => objTrace env n o sc p) obj path
        (schema.elements.map Prod.fst) with
    | mk t r =>
      cases r with
      | some a => simp [objTrace, objTraceF, hp] at hok
      | none =>
        have htvk := tvkPropsF env (tvkObjTrace env n) obj path
          (schema.elements.map Prod.fst) (by rw [hp])
        rw [hp] at htvk
        unfold topVisitKeys
        cases hres : isResource obj.value with
        | true =>
          simp only [objTrace, objTraceF, hp, hres, if_true, List.append_assoc,
            List.cons_append, List.singleton_append, List.nil_append, List.append_nil]
          rw [tvk_enterResource, tvk_enterObject]
          rw [htvk 0 [Event.exitObject path obj, Event.exitResource path obj]]
          rw [tvk_exitObject]
          simp [tvk_exitResource, topVisitKeysAux]
        | false =>
          simp only [objTrace, objTraceF, hp, hres, Bool.false_eq_true, if_false,
            List.append_assoc, List.cons_append, List.singleton_append, List.nil_append,
            List.append_nil]
          rw [tvk_enterObject]
          rw [htvk 0 [Event.exitObject path obj]]
          rw [tvk_exitObject]
          simp [topVisitKeysAux]

/-- C1: for a fixed schema, `visitProperty` is invoked exactly once per
property key declared in the schema's element mapping, in the schema's
declared key order, at every completed object node — independent of the
underlying value, whose own property layout (seen only through the abstract
accessor) cannot affect the keys or their order. -/
theorem visitProperty_once_per_key_in_declared_order (env : CrawlEnv) (fuel : Nat)
    (obj : TypedValue) (schema : InternalTypeSchema) (path : String)
    (hok : (crawlObject env traceVisitor fuel obj schema path []).2 = none) :
    topVisitKeys (crawlObject env traceVisitor fuel obj schema path []).1
      = schema.elements.map Prod.fst := by
  rw [crawlRun_eq env fuel obj schema path] at hok ⊢
  exact topKeys_of_objTrace env fuel obj schema path hok

/-! ## Balanced lifecycle brackets

A stack automaton checks the pairing discipline of a trace: every
`enterObject` pushes its path; `exitObject` must pop a frame with the same
path (so the exit happens only after all nested objects have completed);
`enterResource` must be immediately followed by `enterObject` at the same
path, and the `exitObject` of such a node must be immediately followed by
`exitResource` at the same path — the resource bracket encloses the object
bracket at the same node. -/

inductive BalMode where
  | normal
  | expectEnterObj (path : String)
  | expectExitRes (path : String)

structure BalState where
  stack : List (String × Bool)
  mode : BalMode

def balStep : BalState → Event → Option BalState
  | ⟨stack, BalMode.expectEnterObj p⟩, Event.enterObject q _ =>
    if q = p then some ⟨(p, true) :: stack, BalMode.normal⟩ else none
  | ⟨_, BalMode.expectEnterObj _⟩, _ => none
  | ⟨stack, BalMode.expectExitRes p⟩, Event.exitResource q _ =>
    if q = p then some ⟨stack, BalMode.normal⟩ else none
  | ⟨_, BalMode.expectExitRes _⟩, _ => none
  | ⟨stack, BalMode.normal⟩, Event.enterResource p _ => some ⟨stack, BalMode.expectEnterObj p⟩
  | ⟨stack, BalMode.normal⟩, Event.enterObject p _ => some ⟨(p, false) :: stack, BalMode.normal⟩
  | ⟨(q, isRes) :: stack, BalMode.normal⟩, Event.exitObject p _ =>
    if p = q then some ⟨stack, if isRes then BalMode.expectExitRes p else BalMode.normal⟩
    else none
  | ⟨[], BalMode.normal⟩, Event.exitObject _ _ => none
  | ⟨_, BalMode.normal⟩, Event.exitResource _ _ => none
  | ⟨stack, BalMode.normal⟩, Event.visitProp _ _ _ _ => some ⟨stack, BalMode.normal⟩

def balRun : List Event → BalState → Option BalState
  | [], st => some st
  | e :: rest, st =>
    match balStep st e with
    | none => none
    | some st₂ => balRun rest st₂

/-- A trace is balanced when the automaton consumes it completely, starting
and ending with an empty stack in normal mode. -/
def isBalanced (t : List Event) : Bool :=
  match balRun t ⟨[], BalMode.normal⟩ with
  | some ⟨[], BalMode.normal⟩ => true
  | _ => false

theorem balRun_append (t₁ t₂ : List Event) (st : BalState) :
    balRun (t₁ ++ t₂) st
      = match balRun t₁ st with
        | none => none
        | some st₂ => balRun t₂ st₂ := by
  induction t₁ generalizing st with
  | nil => rfl
  | cons e rest ih =>
    simp only [List.cons_append, balRun]
    cases balStep st e with
    | none => rfl
    | some st₂ => exact ih st₂

theorem balValueF (env : CrawlEnv)
    {rec : TypedValue → InternalTypeSchema → String → List Event × Option TraceAbort}
    (hrec : ∀ o sc p, (rec o sc p).2 = none →
      ∀ stack, balRun (rec o sc p).1 ⟨stack, BalMode.normal⟩ = some ⟨stack, BalMode.normal⟩)
    (value : TypedValue) (path : String)
    (hok : (valueTraceF env rec value path).2 = none) (stack : List (String × Bool)) :
    balRun (valueTraceF env rec value path).1 ⟨stack, BalMode.normal⟩
      = some ⟨stack, BalMode.normal⟩ := by
  unfold valueTraceF at hok ⊢
  cases hl : firstCharLower value.type with
  | true => simp [balRun]
  | false =>
    rw [hl] at hok
    simp only [Bool.false_eq_true, if_false] at hok ⊢
    cases hd : env.getDataType value.type with
    | none => rw [hd] at hok; simp at hok
    | some sc =>
      rw [hd] at hok
      exact hrec value sc path hok stack

theorem balValuesF (env : CrawlEnv)
    {rec : TypedValue → InternalTypeSchema → String → List Event × Option TraceAbort}
    (hrec : ∀ o sc p, (rec o sc p).2 = none →
      ∀ stack, balRun (rec o sc p).1 ⟨stack, BalMode.normal⟩ = some ⟨stack, BalMode.normal⟩)
    (values : List TypedValue) (path : String)
    (hok : (valuesTraceF env rec values path).2 = none) (stack : List (String × Bool)) :
    balRun (valuesTraceF env rec values path).1 ⟨stack, BalMode.normal⟩
      = some ⟨stack, BalMode.normal⟩ := by
  induction values with
  | nil => simp [valuesTraceF, balRun]
  | cons value vrest ih =>
    cases hv : valueTraceF env rec value path with
    | mk t r =>
      cases r with
      | some a => simp [valuesTraceF, hv] at hok
      | none =>
        have h₁ := balValueF env hrec value path (by rw [hv])
        rw [hv] at h₁
        cases hvs : valuesTraceF env rec vrest path with
        | mk t₂ r₂ =>
          have hok₂ : r₂ = none := by
            simp only [valuesTraceF, hv, hvs] at hok
            exact hok
          have h₂ := ih (by rw [hvs]; exact hok₂)
          rw [hvs] at h₂
          simp only [valuesTraceF, hv, hvs]
          rw [balRun_append, h₁ stack]
          exact h₂

theorem balPropF (env : CrawlEnv)
    {rec : TypedValue → InternalTypeSchema → String → List Event × Option TraceAbort}
    (hrec : ∀ o sc p, (rec o sc p).2 = none →
      ∀ stack, balRun (rec o sc p).1 ⟨stack, BalMode.normal⟩ = some ⟨stack, BalMode.normal⟩)
    (parent : TypedValue) (key : String) (path : String)
    (hok : (propTraceF env rec parent key path).2 = none) (stack : List (String × Bool)) :
    balRun (propTraceF env rec parent key path).1 ⟨stack, BalMode.normal⟩
      = some ⟨stack, BalMode.normal⟩ := by
  have hok₂ : (valuesTraceF env rec (collectValues (getNestedProperty env parent key none)) path).2 = none := by
    simpa [propTraceF] using hok
  have hsplit :
      (propTraceF env rec parent key path).1
        = Event.visitProp parent key path (getNestedProperty env parent key none) ::
            (valuesTraceF env rec (collectValues (getNestedProperty env parent key none)) path).1 := by
    simp [propTraceF]
  rw [hsplit]
  simp only [balRun, balStep]
  exact balValuesF env hrec _ path hok₂ stack

theorem balPropsF (env : CrawlEnv)
    {rec : TypedValue → InternalTypeSchema → String → List Event × Option TraceAbort}
    (hrec : ∀ o sc p, (rec o sc p).2 = none →
      ∀ stack, balRun (rec o sc p).1 ⟨stack, BalMode.normal⟩ = some ⟨stack, BalMode.normal⟩)
    (obj : TypedValue) (path : String) (keys : List String)
    (hok : (propsTraceF env rec obj path keys).2 = none) (stack : List (String × Bool)) :
    balRun (propsTraceF env rec obj path keys).1 ⟨stack, BalMode.normal⟩
      = some ⟨stack, BalMode.normal⟩ := by
  induction keys with
  | nil => simp [propsTraceF, balRun]
  | cons key krest ih =>
    cases hp : propTraceF env rec obj key (path ++ "." ++ key) with
    | mk t r =>
      cases r with
      | some a => simp [propsTraceF, hp] at hok
      | none =>
        have h₁ := balPropF env hrec obj key (path ++ "." ++ key) (by rw [hp])
        rw [hp] at h₁
        cases hps : propsTraceF env rec obj path krest with
        | mk t₂ r₂ =>
          have hok₂ : r₂ = none := by
            simp only [propsTraceF, hp, hps] at hok
            exact hok
          have h₂ := ih (by rw [hps]; exact hok₂)
          rw [hps] at h₂
          simp only [propsTraceF, hp, hps]
          rw [balRun_append, h₁ stack]
          exact h₂

theorem balRun_enterResource (p : String) (v : TypedValue) (l : List Event)
    (stack : List (String × Bool)) :
    balRun (Event.enterResource p v :: l) ⟨stack, BalMode.normal⟩
      = balRun l ⟨stack, BalMode.expectEnterObj p⟩ := by
  simp [balRun, balStep]

theorem balRun_enterObject_after_res (p : String) (v : TypedValue) (l : List Event)
    (stack : List (String × Bool)) :
    balRun (Event.enterObject p v :: l) ⟨stack, BalMode.expectEnterObj p⟩
      = balRun l ⟨(p, true) :: stack, BalMode.normal⟩ := by
  simp [balRun, balStep]

theorem balRun_enterObject_normal (p : String) (v : TypedValue) (l : List Event)
    (stack : List (String × Bool)) :
    balRun (Event.enterObject p v :: l) ⟨stack, BalMode.normal⟩
      = balRun l ⟨(p, false) :: stack, BalMode.normal⟩ := by
  simp [balRun, balStep]

theorem balRun_exitObject_top (p : String) (v : TypedValue) (l : List Event)
    (isRes : Bool) (stack : List (String × Bool)) :
    balRun (Event.exitObject p v :: l) ⟨(p, isRes) :: stack, BalMode.normal⟩
      = balRun l ⟨stack, if isRes then BalMode.expectExitRes p else BalMode.normal⟩ := by
  simp [balRun, balStep]

theorem balRun_exit_pair (p : String) (v v₂ : TypedValue) (stack : List (String × Bool)) :
    balRun [Event.exitObject p v, Event.exitResource p v₂] ⟨(p, true) :: stack, BalMode.normal⟩
      = some ⟨stack, BalMode.normal⟩ := by
  simp [balRun, balStep]

theorem balRun_exit_single (p : String) (v : TypedValue) (stack : List (String × Bool)) :
    balRun [Event.exitObject p v] ⟨(p, false) :: stack, BalMode.normal⟩
      = some ⟨stack, BalMode.normal⟩ := by
  simp [balRun, balStep]

theorem balRun_exitResource_expect (p : String) (v : TypedValue) (l : List Event)
    (stack : List (String × Bool)) :
    balRun (Event.exitResource p v :: l) ⟨stack, BalMode.expectExitRes p⟩
      = balRun l ⟨stack, BalMode.normal⟩ := by
  simp [balRun, balStep]

theorem balObjF (env : CrawlEnv)
    {rec : TypedValue → InternalTypeSchema → String → List Event × Option TraceAbort}
    (hrec : ∀ o sc p, (rec o sc p).2 = none →
      ∀ stack, balRun (rec o sc p).1 ⟨stack, BalMode.normal⟩ = some ⟨stack, BalMode.normal⟩)
    (obj : TypedValue) (schema : InternalTypeSchema) (path : String)
    (hok : (objTraceF env rec obj schema path).2 = none) (stack : List (String × Bool)) :
    balRun (objTraceF env rec obj schema path).1 ⟨stack, BalMode.normal⟩
      = some ⟨stack, BalMode.normal⟩ := by
  cases hp : propsTraceF env rec obj path (schema.elements.map Prod.fst) with
  | mk t r =>
    cases r with
    | some a => simp [objTraceF, hp] at hok
    | none =>
      have hprops := balPropsF env hrec obj path (schema.elements.map Prod.fst) (by rw [hp])
      rw [hp] at hprops
      cases hres : isResource obj.value with
      | true =>
        simp only [objTraceF, hp, hres, if_true, List.append_assoc, List.cons_append,
          List.singleton_append, List.nil_append]
        rw [balRun_enterResource, balRun_enterObject_after_res, balRun_append,
          hprops ((path, true) :: stack)]
        exact balRun_exit_pair path obj obj stack
      | false =>
        simp only [objTraceF, hp, hres, Bool.false_eq_true, if_false, List.append_assoc,
          List.cons_append, List.singleton_append, List.nil_append, List.append_nil]
        rw [balRun_enterObject_normal, balRun_append, hprops ((path, false) :: stack)]
        exact balRun_exit_single path obj stack

theorem balObjTrace (env : CrawlEnv) (fuel : Nat) :
    ∀ obj schema path, (objTrace env fuel obj schema path).2 = none →
      ∀ stack, balRun (objTrace env fuel obj schema path).1 ⟨stack, BalMode.normal⟩
        = some ⟨stack, BalMode.normal⟩ := by
  induction fuel with
  | zero => intro obj schema path hok; simp [objTrace] at hok
  | succ n ih =>
    intro obj schema path hok stack
    exact balObjF env (fun o sc p => ih o sc p) obj schema path hok stack

/-- C2: in every completed crawl the lifecycle callbacks are perfectly
bracketed: each `onEnterObject` at a path has exactly one matching
`onExitObject` at that path, fired only after all of the node's properties
and all nested object brackets have completed (stack discipline), and
`onEnterResource`/`onExitResource` bracket `onEnterObject`/`onExitObject` at
the same node — enter-resource immediately before enter-object,
exit-resource immediately after exit-object. -/
theorem lifecycle_brackets_balanced (env : CrawlEnv) (fuel : Nat)
    (obj : TypedValue) (schema : InternalTypeSchema) (path : String)
    (hok : (crawlObject env traceVisitor fuel obj schema path []).2 = none) :
    isBalanced (crawlObject env traceVisitor fuel obj schema path []).1 = true := by
  rw [crawlRun_eq env fuel obj schema path] at hok ⊢
  unfold isBalanced
  rw [balObjTrace env fuel obj schema path hok []]

/-! ## Resource callbacks at every node

`ResPaired` states that resource-level callbacks in a trace track the
resource discriminator: `enterResource`/`exitResource` fire only for values
satisfying `isResource`, and every entered (resp. exited) object whose value
satisfies `isResource` also receives the corresponding resource callback —
at any depth, so nested and contained resources are bracketed too. -/

def ResPaired (tr : List Event) : Prop :=
  (∀ p v, Event.enterResource p v ∈ tr → isResource v.value = true) ∧
  (∀ p v, Event.exitResource p v ∈ tr → isResource v.value = true) ∧
  (∀ p v, Event.enterObject p v ∈ tr → isResource v.value = true →
    Event.enterResource p v ∈ tr) ∧
  (∀ p v, Event.exitObject p v ∈ tr → isResource v.value = true →
    Event.exitResource p v ∈ tr)

theorem resPaired_nil : ResPaired [] := by
  refine ⟨?_, ?_, ?_, ?_⟩ <;> intro p v hm <;> simp at hm

theorem resPaired_append {t₁ t₂ : List Event} (h₁ : ResPaired t₁) (h₂ : ResPaired t₂) :
    ResPaired (t₁ ++ t₂) := by
  obtain ⟨a₁, b₁, c₁, d₁⟩ := h₁
  obtain ⟨a₂, b₂, c₂, d₂⟩ := h₂
  refine ⟨?_, ?_, ?_, ?_⟩ <;> intro p v hm
  · rcases List.mem_append.mp hm with h | h
    · exact a₁ p v h
    · exact a₂ p v h
  · rcases List.mem_append.mp hm with h | h
    · exact b₁ p v h
    · exact b₂ p v h
  · intro hres
    rcases List.mem_append.mp hm with h | h
    · exact List.mem_append.mpr (Or.inl (c₁ p v h hres))
    · exact List.mem_append.mpr (Or.inr (c₂ p v h hres))
  · intro hres
    rcases List.mem_append.mp hm with h | h
    · exact List.mem_append.mpr (Or.inl (d₁ p v h hres))
    · exact List.mem_append.mpr (Or.inr (d₂ p v h hres))

theorem resPaired_visitProp (parent : TypedValue) (key path : String)
    (vals : List PropElem) : ResPaired [Event.visitProp parent key path vals] := by
  refine ⟨?_, ?_, ?_, ?_⟩ <;> intro p v hm <;> simp at hm

theorem rpValueF (env : CrawlEnv)
    {rec : TypedValue → InternalTypeSchema → String → List Event × Option TraceAbort}
    (hrec : ∀ o sc p, ResPaired (rec o sc p).1)
    (value : TypedValue) (path : String) :
    ResPaired (valueTraceF env rec value path).1 := by
  unfold valueTraceF
  cases hl : firstCharLower value.type with
  | true => simpa using resPaired_nil
  | false =>
    simp only [Bool.false_eq_true, if_false]
    cases hd : env.getDataType value.type with
    | none => simpa using resPaired_nil
    | some sc => exact hrec value sc path

theorem rpValuesF (env : CrawlEnv)
    {rec : TypedValue → InternalTypeSchema → String → List Event × Option TraceAbort}
    (hrec : ∀ o sc p, ResPaired (rec o sc p).1)
    (values : List TypedValue) (path : String) :
    ResPaired (valuesTraceF env rec values path).1 := by
  induction values with
  | nil => simpa [valuesTraceF] using resPaired_nil
  | cons value vrest ih =>
    cases hv : valueTraceF env rec value path with
    | mk t r =>
      have h₁ : ResPaired t := by
        have := rpValueF env hrec value path
        rwa [hv] at this
      cases r with
      | some a => simpa [valuesTraceF, hv] using h₁
      | none =>
        cases hvs : valuesTraceF env rec vrest path with
        | mk t₂ r₂ =>
          have h₂ : ResPaired t₂ := by rw [hvs] at ih; exact ih
          simpa [valuesTraceF, hv, hvs] using resPaired_append h₁ h₂

theorem rpPropF (env : CrawlEnv)
    {rec : TypedValue → InternalTypeSchema → String → List Event × Option TraceAbort}
    (hrec : ∀ o sc p, ResPaired (rec o sc p).1)
    (parent : TypedValue) (key : String) (path : String) :
    ResPaired (propTraceF env rec parent key path).1 := by
  have hsplit :
      (propTraceF env rec parent key path).1
        = [Event.visitProp parent key path (getNestedProperty env parent key none)] ++
            (valuesTraceF env rec (collectValues (getNestedProperty env parent key none)) path).1 := by
    simp [propTraceF]
  rw [hsplit]
  exact resPaired_append (resPaired_visitProp parent key path _)
    (rpValuesF env hrec _ path)

theorem rpPropsF (env : CrawlEnv)
    {rec : TypedValue → InternalTypeSchema → String → List Event × Option TraceAbort}
    (hrec : ∀ o sc p, ResPaired (rec o sc p).1)
    (obj : TypedValue) (path : String) (keys : List String) :
    ResPaired (propsTraceF env rec obj path keys).1 := by
  induction keys with
  | nil => simpa [propsTraceF] using resPaired_nil
  | cons key krest ih =>
    cases hp : propTraceF env rec obj key (path ++ "." ++ key) with
    | mk t r =>
      have h₁ : ResPaired t := by
        have := rpPropF env hrec obj key (path ++ "." ++ key)
        rwa [hp] at this
      cases r with
      | some a => simpa [propsTraceF, hp] using h₁
      | none =>
        cases hps : propsTraceF env rec obj path krest with
        | mk t₂ r₂ =>
          have h₂ : ResPaired t₂ := by rw [hps] at ih; exact ih
          simpa [propsTraceF, hp, hps] using resPaired_append h₁ h₂

theorem rpObjF (env : CrawlEnv)
    {rec : TypedValue → InternalTypeSchema → String → List Event × Option TraceAbort}
    (hrec : ∀ o sc p, ResPaired (rec o sc p).1)
    (obj : TypedValue) (schema : InternalTypeSchema) (path : String) :
    ResPaired (objTraceF env rec obj schema path).1 := by
  cases hp : propsTraceF env rec obj path (schema.elements.map Prod.fst) with
  | mk t r =>
    have ht : ResPaired t := by
      have := rpPropsF env hrec obj path (schema.elements.map Prod.fst)
      rwa [hp] at this
    obtain ⟨ta, tb, tc, td⟩ := ht
    cases hres : isResource obj.value with
    | true =>
      cases r with
      | some a =>
        simp only [objTraceF, hp, hres, if_true, List.append_assoc, List.cons_append,
          List.singleton_append, List.nil_append]
        refine ⟨?_, ?_, ?_, ?_⟩ <;> intro p v hm <;>
          simp only [List.mem_cons, List.mem_append] at hm
        · rcases hm with h | h | h
          · obtain ⟨rfl, rfl⟩ := (Event.enterResource.injEq _ _ _ _).mp h
            exact hres
          · simp at h
          · exact ta p v h
        · rcases hm with h | h | h
          · simp at h
          · simp at h
          · exact tb p v h
        · intro hresv
          rcases hm with h | h | h
          · simp at h
          · obtain ⟨rfl, rfl⟩ := (Event.enterObject.injEq _ _ _ _).mp h
            simp [List.mem_cons]
          · simp only [List.mem_cons, List.mem_append]
            exact Or.inr (Or.inr (tc p v h hresv))
        · intro hresv
          rcases hm with h | h | h
          · simp at h
          · simp at h
          · simp only [List.mem_cons, List.mem_append]
            exact Or.inr (Or.inr (td p v h hresv))
      | none =>
        simp only [objTraceF, hp, hres, if_true, List.append_assoc, List.cons_append,
          List.singleton_append, List.nil_append]
        refine ⟨?_, ?_, ?_, ?_⟩ <;> intro p v hm <;>
          simp only [List.mem_cons, List.mem_append, List.mem_singleton, List.not_mem_nil, or_false] at hm
        · rcases hm with h | h | h | h | h
          · obtain ⟨rfl, rfl⟩ := (Event.enterResource.injEq _ _ _ _).mp h
            exact hres
          · simp at h
          · exact ta p v h
          · simp at h
          · simp at h
        · rcases hm with h | h | h | h | h
          · simp at h
          · simp at h
          · exact tb p v h
          · simp at h
          · obtain ⟨rfl, rfl⟩ := (Event.exitResource.injEq _ _ _ _).mp h
            exact hres
        · intro hresv
          rcases hm with h | h | h | h | h
          · simp at h
          · obtain ⟨rfl, rfl⟩ := (Event.enterObject.injEq _ _ _ _).mp h
            simp [List.mem_cons]
          · simp only [List.mem_cons, List.mem_append, List.mem_singleton]
            exact Or.inr (Or.inr (Or.inl (tc p v h hresv)))
          · simp at h
          · simp at h
        · intro hresv
          rcases hm with h | h | h | h | h
          · simp at h
          · simp at h
          · simp only [List.mem_cons, List.mem_append, List.mem_singleton]
            exact Or.inr (Or.inr (Or.inl (td p v h hresv)))
          · obtain ⟨rfl, rfl⟩ := (Event.exitObject.injEq _ _ _ _).mp h
            simp [List.mem_cons, List.mem_append, List.mem_singleton]
          · simp at h
    | false =>
      cases r with
      | some a =>
        simp only [objTraceF, hp, hres, Bool.false_eq_true, if_false, List.append_assoc,
          List.cons_append, List.singleton_append, List.nil_append]
        refine ⟨?_, ?_, ?_, ?_⟩ <;> intro p v hm <;>
          simp only [List.mem_cons, List.mem_append] at hm
        · rcases hm with h | h
          · simp at h
          · exact ta p v h
        · rcases hm with h | h
          · simp at h
          · exact tb p v h
        · intro hresv
          rcases hm with h | h
          · obtain ⟨rfl, rfl⟩ := (Event.enterObject.injEq _ _ _ _).mp h
            rw [hresv] at hres
            cases hres
          · simp only [List.mem_cons, List.mem_append]
            exact Or.inr (tc p v h hresv)
        · intro hresv
          rcases hm with h | h
          · simp at h
          · simp only [List.mem_cons, List.mem_append]
            exact Or.inr (td p v h hresv)
      | none =>
        simp only [objTraceF, hp, hres, Bool.false_eq_true, if_false, List.append_assoc,
          List.cons_append, List.singleton_append, List.nil_append, List.append_nil]
        refine ⟨?_, ?_, ?_, ?_⟩ <;> intro p v hm <;>
          simp only [List.mem_cons, List.mem_append, List.mem_singleton, List.not_mem_nil, or_false] at hm
        · rcases hm with h | h | h
          · simp at h
          · exact ta p v h
          · simp at h
        · rcases hm with h | h | h
          · simp at h
          · exact tb p v h
          · simp at h
        · intro hresv
          rcases hm with h | h | h
          · obtain ⟨rfl, rfl⟩ := (Event.enterObject.injEq _ _ _ _).mp h
            rw [hresv] at hres
            cases hres
          · simp only [List.mem_cons, List.mem_append, List.mem_singleton]
            exact Or.inr (Or.inl (tc p v h hresv))
          · simp at h
        · intro hresv
          rcases hm with h | h | h
          · simp at h
          · simp only [List.mem_cons, List.mem_append, List.mem_singleton]
            exact Or.inr (Or.inl (td p v h hresv))
          · obtain ⟨rfl, rfl⟩ := (Event.exitObject.injEq _ _ _ _).mp h
            rw [hresv] at hres
            cases hres

theorem rpObjTrace (env : CrawlEnv) (fuel : Nat) :
    ∀ obj schema path, ResPaired (objTrace env fuel obj schema path).1 := by
  induction fuel with
  | zero => intro obj schema path; simpa [objTrace] using resPaired_nil
  | succ n ih =>
    intro obj schema path
    exact rpObjF env (fun o sc p => ih o sc p) obj schema path

/-- C10: at every composite node a crawl visits, at any depth, the
resource-level callbacks fire exactly for the nodes whose runtime value
satisfies the resource discriminator: every `onEnterResource`/
`onExitResource` invocation is for a value with `isResource`, and every
entered (exited) object whose value satisfies `isResource` also receives
`onEnterResource` (`onExitResource`) — so nested or contained resources get
the resource bracket too, not only the root of the crawl. -/
theorem resource_callbacks_iff_isResource (env : CrawlEnv) (fuel : Nat)
    (obj : TypedValue) (schema : InternalTypeSchema) (path : String) :
    ResPaired (crawlObject env traceVisitor fuel obj schema path []).1 := by
  rw [crawlRun_eq env fuel obj schema path]
  exact rpObjTrace env fuel obj schema path

/-! ## Cardinality is not consulted by the crawler

The crawler iterates every key of `schema.elements` and never reads an
element descriptor's `max` bound; a key whose descriptor has `max = 0` is
resolved, reported to `visitProperty` and descended into exactly like any
other key. -/

/-- Number of `visitProperty` invocations for a given key in a trace. -/
def countVisitKey (key : String) : List Event → Nat
  | [] => 0
  | Event.visitProp _ k _ _ :: rest =>
    (if k = key then 1 else 0) + countVisitKey key rest
  | _ :: rest => countVisitKey key rest

/-- Number of `onEnterObject` invocations at a given path in a trace. -/
def countEnterAt (p : String) : List Event → Nat
  | [] => 0
  | Event.enterObject q _ :: rest =>
    (if q = p then 1 else 0) + countEnterAt p rest
  | _ :: rest => countEnterAt p rest

/-- A one-key schema whose only element descriptor is forbidden
(`max = 0`). -/
def forbiddenEl : InternalSchemaElement :=
  { path := "Extent.forbidden", type := ["Quantity"], min := 0, max := some 0 }

def schemaC3 : InternalTypeSchema :=
  { name := "Extent", elements := [("forbidden", forbiddenEl)] }

/-- An environment whose accessor does return a composite value for the
forbidden key — the instance data carries a value for it. -/
def envC3 : CrawlEnv where
  getDataType := fun t =>
    if t = "Quantity" then some { name := "Quantity", elements := [] }
    else if t = "Extent" then some schemaC3
    else none
  getTypedPropertyValue := fun tv k _ =>
    if tv.type = "Extent" ∧ k = "forbidden" then
      some (PropValue.single ⟨"Quantity", JsValue.obj []⟩)
    else none

def objC3 : TypedValue := ⟨"Extent", JsValue.obj []⟩

/-- C3 counterexample: on a schema whose single element has `max = 0`, and
an instance that carries a value for it, the completed crawl still invokes
`visitProperty` once for that key and still enters the forbidden value's
object node — the crawler has no `max`-based filtering, contradicting the
claim that such a property produces zero `visitProperty` calls and is never
traversed. -/
theorem maxZero_still_crawled_counterexample :
    forbiddenEl.max = some 0 ∧
    schemaC3.elements = [("forbidden", forbiddenEl)] ∧
    countVisitKey "forbidden"
      (crawlObject envC3 traceVisitor 3 objC3 schemaC3 "Extent" []).1 = 1 ∧
    countEnterAt "Extent.forbidden"
      (crawlObject envC3 traceVisitor 3 objC3 schemaC3 "Extent" []).1 = 1 ∧
    (crawlObject envC3 traceVisitor 3 objC3 schemaC3 "Extent" []).2 = none :=
  ⟨rfl, rfl, rfl, rfl, rfl⟩

theorem visitProp_mem_propsTraceF (env : CrawlEnv)
    {rec : TypedValue → InternalTypeSchema → String → List Event × Option TraceAbort}
    (obj : TypedValue) (path : String) (keys : List String) (k : String)
    (hk : k ∈ keys) (hok : (propsTraceF env rec obj path keys).2 = none) :
    Event.visitProp obj k (path ++ "." ++ k) (getNestedProperty env obj k none)
      ∈ (propsTraceF env rec obj path keys).1 := by
  induction keys with
  | nil => simp at hk
  | cons key krest ih =>
    cases hp : propTraceF env rec obj key (path ++ "." ++ key) with
    | mk t r =>
      cases r with
      | some a => simp [propsTraceF, hp] at hok
      | none =>
        cases hps : propsTraceF env rec obj path krest with
        | mk t₂ r₂ =>
          have hok₂ : r₂ = none := by
            simp only [propsTraceF, hp, hps] at hok
            exact hok
          simp only [propsTraceF, hp, hps]
          rcases List.mem_cons.mp hk with rfl | hk₂
          · have hhead :
                Event.visitProp obj k (path ++ "." ++ k) (getNestedProperty env obj k none) ∈ t := by
              have hsplit : t = (propTraceF env rec obj k (path ++ "." ++ k)).1 := by rw [hp]
              rw [hsplit]
              have : (propTraceF env rec obj k (path ++ "." ++ k)).1
                  = Event.visitProp obj k (path ++ "." ++ k) (getNestedProperty env obj k none) ::
                      (valuesTraceF env rec (collectValues (getNestedProperty env obj k none))
                        (path ++ "." ++ k)).1 := by
                simp [propTraceF]
              rw [this]
              exact List.mem_cons_self _ _
            exact List.mem_append.mpr (Or.inl hhead)
          · have h₂ := ih hk₂ (by rw [hps]; exact hok₂)
            rw [hps] at h₂
            exact List.mem_append.mpr (Or.inr h₂)

theorem visitProp_mem_objTrace (env : CrawlEnv) (fuel : Nat) (obj : TypedValue)
    (schema : InternalTypeSchema) (path : String) (k : String)
    (hk : k ∈ schema.elements.map Prod.fst)
    (hok : (objTrace env fuel obj schema path).2 = none) :
    Event.visitProp obj k (path ++ "." ++ k) (getNestedProperty env obj k none)
      ∈ (objTrace env fuel obj schema path).1 := by
  cases fuel with
  | zero => simp [objTrace] at hok
  | succ n =>
    cases hp : propsTraceF env (fun o sc p => objTrace env n o sc p) obj path
        (schema.elements.map Prod.fst) with
    | mk t r =>
      cases r with
      | some a => simp [objTrace, objTraceF, hp] at hok
      | none =>
        have hmem := visitProp_mem_propsTraceF env obj path (schema.elements.map Prod.fst) k hk
          (by rw [hp])
        rw [hp] at hmem
        cases hres : isResource obj.value with
        | true =>
          simp only [objTrace, objTraceF, hp, hres, if_true, List.append_assoc,
            List.cons_append, List.singleton_append, List.nil_append]
          simp only [List.mem_cons, List.mem_append]
          exact Or.inr (Or.inr (Or.inl hmem))
        | false =>
          simp only [objTrace, objTraceF, hp, hres, Bool.false_eq_true, if_false,
            List.append_assoc, List.cons_append, List.singleton_append, List.nil_append,
            List.append_nil]
          simp only [List.mem_cons, List.mem_append]
          exact Or.inr (Or.inl hmem)

/-- C3 (amended): the crawler performs no cardinality filtering — a property
key present in the schema's element mapping whose descriptor has `max = 0`
is crawled exactly like any other key: in every completed crawl,
`visitProperty` is still invoked for it, with its resolved values. -/
theorem maxZero_key_visited_like_any_other (env : CrawlEnv) (fuel : Nat)
    (obj : TypedValue) (schema : InternalTypeSchema) (path : String)
    (k : String) (el : InternalSchemaElement)
    (hel : (k, el) ∈ schema.elements) (hmax : el.max = some 0)
    (hok : (crawlObject env traceVisitor fuel obj schema path []).2 = none) :
    Event.visitProp obj k (path ++ "." ++ k) (getNestedProperty env obj k none)
      ∈ (crawlObject env traceVisitor fuel obj schema path []).1 := by
  rw [crawlRun_eq env fuel obj schema path] at hok ⊢
  exact visitProp_mem_objTrace env fuel obj schema path k
    (List.mem_map_of_mem Prod.fst hel) hok

/-! ## Visitor errors abort the crawl and propagate unchanged

`ThrowSim` relates a crawl under the budgeted throwing visitor to the pure
trace: with a budget of `n` callbacks remaining, either the trace is longer
than the budget — then the crawl performs exactly the first `n` callbacks,
aborts at the `n`-th with the visitor's error, unchanged, and performs
nothing after it — or the budget suffices and the crawl runs to the trace's
own outcome. -/

def embedAbort {ε : Type} : TraceAbort → CrawlErr ε
  | CrawlErr.outOfFuel => CrawlErr.outOfFuel
  | CrawlErr.unknownType t => CrawlErr.unknownType t
  | CrawlErr.visitorError e => e.elim

def ThrowSim {ε : Type} (e : ε) (m : CrawlM (Nat × List Event) ε)
    (t : List Event × Option TraceAbort) : Prop :=
  ∀ n t₀,
    m (n, t₀) =
      if n < t.1.length
      then ((0, t₀ ++ t.1.take n), some (CrawlErr.visitorError e))
      else ((n - t.1.length, t₀ ++ t.1), t.2.map embedAbort)

theorem throwSim_pure {ε : Type} (e : ε) : ThrowSim e CrawlM.pure ([], none) := by
  intro n t₀
  simp [CrawlM.pure]

theorem throwSim_unknownType {ε : Type} (e : ε) (ty : String) :
    ThrowSim e (fun s => (s, some (CrawlErr.unknownType ty)))
      ([], some (CrawlErr.unknownType ty)) := by
  intro n t₀
  simp [embedAbort]

theorem throwSim_throwCB {ε : Type} (e : ε) (ev : Event) :
    ThrowSim e
      (fun s =>
        match throwCB e ev s with
        | (s₁, none) => (s₁, none)
        | (s₁, some err) => (s₁, some (CrawlErr.visitorError err)))
      ([ev], none) := by
  intro n t₀
  cases n with
  | zero => simp [throwCB]
  | succ m => simp [throwCB]

theorem throwSim_enterObject {ε : Type} (e : ε) (path : String) (obj : TypedValue)
    (schema : InternalTypeSchema) :
    ThrowSim e (callObjCB (throwingVisitor e).onEnterObject path obj schema)
      ([Event.enterObject path obj], none) := by
  intro n t₀
  cases n with
  | zero => simp [callObjCB, throwingVisitor, throwCB]
  | succ m => simp [callObjCB, throwingVisitor, throwCB]

theorem throwSim_exitObject {ε : Type} (e : ε) (path : String) (obj : TypedValue)
    (schema : InternalTypeSchema) :
    ThrowSim e (callObjCB (throwingVisitor e).onExitObject path obj schema)
      ([Event.exitObject path obj], none) := by
  intro n t₀
  cases n with
  | zero => simp [callObjCB, throwingVisitor, throwCB]
  | succ m => simp [callObjCB, throwingVisitor, throwCB]

theorem throwSim_enterResource {ε : Type} (e : ε) (path : String) (obj : TypedValue)
    (schema : InternalTypeSchema) :
    ThrowSim e (callObjCB (throwingVisitor e).onEnterResource path obj schema)
      ([Event.enterResource path obj], none) := by
  intro n t₀
  cases n with
  | zero => simp [callObjCB, throwingVisitor, throwCB]
  | succ m => simp [callObjCB, throwingVisitor, throwCB]

theorem throwSim_exitResource {ε : Type} (e : ε) (path : String) (obj : TypedValue)
    (schema : InternalTypeSchema) :
    ThrowSim e (callObjCB (throwingVisitor e).onExitResource path obj schema)
      ([Event.exitResource path obj], none) := by
  intro n t₀
  cases n with
  | zero => simp [callObjCB, throwingVisitor, throwCB]
  | succ m => simp [callObjCB, throwingVisitor, throwCB]

theorem throwSim_visitProp {ε : Type} (e : ε) (parent : TypedValue) (key path : String)
    (values : List PropElem) (schema : InternalTypeSchema) :
    ThrowSim e (callVisitPropCB (throwingVisitor e).visitProperty parent key path values schema)
      ([Event.visitProp parent key path values], none) := by
  intro n t₀
  cases n with
  | zero => simp [callVisitPropCB, throwingVisitor, throwCB]
  | succ m => simp [callVisitPropCB, throwingVisitor, throwCB]

theorem throwSim_andThen {ε : Type} {e : ε} {m₁ m₂ : CrawlM (Nat × List Event) ε}
    {t₁ : List Event} {t₂ : List Event × Option TraceAbort}
    (h₁ : ThrowSim e m₁ (t₁, none)) (h₂ : ThrowSim e m₂ t₂) :
    ThrowSim e (CrawlM.andThen m₁ m₂) (t₁ ++ t₂.1, t₂.2) := by
  intro n t₀
  simp only [CrawlM.andThen]
  by_cases hlt : n < t₁.length
  · rw [h₁ n t₀, if_pos hlt]
    have hlen : n < (t₁ ++ t₂.1).length := by
      simp only [List.length_append]; omega
    rw [if_pos hlen, List.take_append_of_le_length (Nat.le_of_lt hlt)]
  · rw [h₁ n t₀, if_neg hlt]
    show m₂ (n - t₁.length, t₀ ++ t₁) = _
    rw [h₂ (n - t₁.length) (t₀ ++ t₁)]
    by_cases hlt₂ : n - t₁.length < t₂.1.length
    · rw [if_pos hlt₂]
      have hlen : n < (t₁ ++ t₂.1).length := by
        simp only [List.length_append]; omega
      rw [if_pos hlen, List.take_append_eq_append_take,
        List.take_of_length_le (by omega : t₁.length ≤ n), List.append_assoc]
    · rw [if_neg hlt₂]
      have hlen : ¬ n < (t₁ ++ t₂.1).length := by
        simp only [List.length_append]; omega
      rw [if_neg hlen]
      simp only [List.length_append, List.append_assoc]
      have : n - (t₁.length + t₂.1.length) = n - t₁.length - t₂.1.length := by omega
      rw [this]

theorem throwSim_andThen_abort {ε : Type} {e : ε} {m₁ : CrawlM (Nat × List Event) ε}
    (m₂ : CrawlM (Nat × List Event) ε)
    {t₁ : List Event} {a : TraceAbort} (h₁ : ThrowSim e m₁ (t₁, some a)) :
    ThrowSim e (CrawlM.andThen m₁ m₂) (t₁, some a) := by
  intro n t₀
  have h₁' := h₁ n t₀
  simp only at h₁' ⊢
  simp only [CrawlM.andThen]
  rw [h₁']
  by_cases hlt : n < t₁.length
  · rw [if_pos hlt]
  · rw [if_neg hlt]
    rfl

theorem throwSimValueF {ε : Type} (env : CrawlEnv) (e : ε)
    {mrec : TypedValue → InternalTypeSchema → String → CrawlM (Nat × List Event) ε}
    {rec : TypedValue → InternalTypeSchema → String → List Event × Option TraceAbort}
    (hrec : ∀ o sc p, ThrowSim e (mrec o sc p) (rec o sc p))
    (value : TypedValue) (path : String) :
    ThrowSim e (crawlPropertyValueF env mrec value path) (valueTraceF env rec value path) := by
  unfold crawlPropertyValueF valueTraceF
  by_cases hl : firstCharLower value.type = true
  · simp only [hl, if_true]
    exact throwSim_pure e
  · simp only [Bool.not_eq_true] at hl
    simp only [hl, Bool.false_eq_true, if_false]
    cases env.getDataType value.type with
    | none => exact throwSim_unknownType e value.type
    | some sc => exact hrec value sc path

theorem throwSimValuesF {ε : Type} (env : CrawlEnv) (e : ε)
    {mrec : TypedValue → InternalTypeSchema → String → CrawlM (Nat × List Event) ε}
    {rec : TypedValue → InternalTypeSchema → String → List Event × Option TraceAbort}
    (hrec : ∀ o sc p, ThrowSim e (mrec o sc p) (rec o sc p))
    (values : List TypedValue) (path : String) :
    ThrowSim e (crawlValuesF env mrec values path) (valuesTraceF env rec values path) := by
  induction values with
  | nil => exact throwSim_pure e
  | cons value rest ih =>
    have h₁ := throwSimValueF env e hrec value path
    cases hv : valueTraceF env rec value path with
    | mk t r =>
      rw [hv] at h₁
      cases r with
      | some a =>
        simp only [crawlValuesF, valuesTraceF, hv]
        exact throwSim_andThen_abort _ h₁
      | none =>
        simp only [crawlValuesF, valuesTraceF, hv]
        cases hrest : valuesTraceF env rec rest path with
        | mk t₂ r₂ =>
          have h₂ := ih
          rw [hrest] at h₂
          exact throwSim_andThen h₁ h₂

theorem throwSimPropF {ε : Type} (env : CrawlEnv) (e : ε)
    {mrec : TypedValue → InternalTypeSchema → String → CrawlM (Nat × List Event) ε}
    {rec : TypedValue → InternalTypeSchema → String → List Event × Option TraceAbort}
    (hrec : ∀ o sc p, ThrowSim e (mrec o sc p) (rec o sc p))
    (parent : TypedValue) (key : String) (schema : InternalTypeSchema) (path : String) :
    ThrowSim e (crawlPropertyF env (throwingVisitor e) mrec parent key schema path)
      (propTraceF env rec parent key path) := by
  have h₂ := throwSimValuesF env e hrec (collectValues (getNestedProperty env parent key none)) path
  have h := throwSim_andThen
    (throwSim_visitProp e parent key path (getNestedProperty env parent key none) schema) h₂
  intro n t₀
  have hs := h n t₀
  simpa [crawlPropertyF, propTraceF] using hs

theorem throwSimPropsF {ε : Type} (env : CrawlEnv) (e : ε)
    {mrec : TypedValue → InternalTypeSchema → String → CrawlM (Nat × List Event) ε}
    {rec : TypedValue → InternalTypeSchema → String → List Event × Option TraceAbort}
    (hrec : ∀ o sc p, ThrowSim e (mrec o sc p) (rec o sc p))
    (obj : TypedValue) (schema : InternalTypeSchema) (path : String) (keys : List String) :
    ThrowSim e (crawlPropertiesF env (throwingVisitor e) mrec obj schema path keys)
      (propsTraceF env rec obj path keys) := by
  induction keys with
  | nil => exact throwSim_pure e
  | cons key rest ih =>
    have h₁ := throwSimPropF env e hrec obj key schema (path ++ "." ++ key)
    cases hp : propTraceF env rec obj key (path ++ "." ++ key) with
    | mk t r =>
      rw [hp] at h₁
      cases r with
      | some a =>
        simp only [crawlPropertiesF, propsTraceF, hp]
        exact throwSim_andThen_abort _ h₁
      | none =>
        simp only [crawlPropertiesF, propsTraceF, hp]
        cases hrest : propsTraceF env rec obj path rest with
        | mk t₂ r₂ =>
          have h₂ := ih
          rw [hrest] at h₂
          exact throwSim_andThen h₁ h₂

theorem throwSimObjF {ε : Type} (env : CrawlEnv) (e : ε)
    {mrec : TypedValue → InternalTypeSchema → String → CrawlM (Nat × List Event) ε}
    {rec : TypedValue → InternalTypeSchema → String → List Event × Option TraceAbort}
    (hrec : ∀ o sc p, ThrowSim e (mrec o sc p) (rec o sc p))
    (obj : TypedValue) (schema : InternalTypeSchema) (path : String) :
    ThrowSim e (crawlObjectF env (throwingVisitor e) mrec obj schema path)
      (objTraceF env rec obj schema path) := by
  unfold crawlObjectF objTraceF
  have hprops := throwSimPropsF env e hrec obj schema path (schema.elements.map Prod.fst)
  cases hp : propsTraceF env rec obj path (schema.elements.map Prod.fst) with
  | mk t r =>
    rw [hp] at hprops
    by_cases hres : isResource obj.value = true
    · simp only [hres, if_true]
      cases r with
      | some a =>
        have h := throwSim_andThen (throwSim_enterResource e path obj schema)
          (throwSim_andThen (throwSim_enterObject e path obj schema)
            (throwSim_andThen_abort (CrawlM.andThen
              (callObjCB (throwingVisitor e).onExitObject path obj schema)
              (callObjCB (throwingVisitor e).onExitResource path obj schema)) hprops))
        intro n t₀
        have hs := h n t₀
        simpa using hs
      | none =>
        have h := throwSim_andThen (throwSim_enterResource e path obj schema)
          (throwSim_andThen (throwSim_enterObject e path obj schema)
            (throwSim_andThen hprops
              (throwSim_andThen (throwSim_exitObject e path obj schema)
                (throwSim_exitResource e path obj schema))))
        intro n t₀
        have hs := h n t₀
        simpa using hs
    · simp only [Bool.not_eq_true] at hres
      simp only [hres, Bool.false_eq_true, if_false]
      cases r with
      | some a =>
        have h := throwSim_andThen (throwSim_pure e)
          (throwSim_andThen (throwSim_enterObject e path obj schema)
            (throwSim_andThen_abort (CrawlM.andThen
              (callObjCB (throwingVisitor e).onExitObject path obj schema) CrawlM.pure) hprops))
        intro n t₀
        have hs := h n t₀
        simpa using hs
      | none =>
        have h := throwSim_andThen (throwSim_pure e)
          (throwSim_andThen (throwSim_enterObject e path obj schema)
            (throwSim_andThen hprops
              (throwSim_andThen (throwSim_exitObject e path obj schema) (throwSim_pure e))))
        intro n t₀
        have hs := h n t₀
        simpa using hs

theorem crawlObject_throwSim {ε : Type} (env : CrawlEnv) (e : ε) (fuel : Nat) :
    ∀ obj schema path,
      ThrowSim e (crawlObject env (throwingVisitor e) fuel obj schema path)
        (objTrace env fuel obj schema path) := by
  induction fuel with
  | zero =>
    intro obj schema path n t₀
    simp [crawlObject, objTrace, embedAbort]
  | succ n ih =>
    intro obj schema path
    exact throwSimObjF env e (fun o sc p => ih o sc p) obj schema path

/-- C6: an error thrown from any visitor callback aborts the entire crawl
immediately and propagates unchanged.  Under the visitor whose callbacks
run normally until the budget `n` is exhausted and whose next callback
throws `e`, a crawl whose full callback sequence is longer than `n`
performs exactly the first `n` callbacks of the normal crawl — none after
the throwing one — and returns precisely the thrown error `e`, not wrapped
and not recovered from. -/
theorem visitor_error_aborts_and_propagates {ε : Type} (env : CrawlEnv) (fuel : Nat)
    (obj : TypedValue) (schema : InternalTypeSchema) (path : String) (e : ε) (n : Nat)
    (hn : n < (crawlObject env traceVisitor fuel obj schema path []).1.length) :
    crawlObject env (throwingVisitor e) fuel obj schema path (n, [])
      = ((0, (crawlObject env traceVisitor fuel obj schema path []).1.take n),
          some (CrawlErr.visitorError e)) := by
  rw [crawlRun_eq env fuel obj schema path] at hn ⊢
  simp only at hn ⊢
  have h := crawlObject_throwSim env e fuel obj schema path n []
  rw [if_pos hn] at h
  simpa using h

/-! ## Concrete crawls

Small fixtures exercising every theorem at a concrete input: a two-key
resource schema with composite children, a one-key non-resource type whose
property is absent on the instance, and an empty-schema resource. -/

def demoNameSchema : InternalTypeSchema :=
  { name := "HumanName"
    elements := [("family", { path := "HumanName.family", type := ["string"], min := 0, max := some 1 })] }

def demoSchema : InternalTypeSchema :=
  { name := "Patient"
    elements :=
      [("id", { path := "Patient.id", type := ["id"], min := 0, max := some 1 }),
       ("name", { path := "Patient.name", type := ["HumanName"], min := 0, max := none })] }

def demoPatient : JsValue := JsValue.obj [("resourceType", JsValue.prim "Patient")]

def demoObj : TypedValue := ⟨"Patient", demoPatient⟩

def demoEnv : CrawlEnv where
  getDataType := fun t =>
    if t = "Patient" then some demoSchema
    else if t = "HumanName" then some demoNameSchema
    else none
  getTypedPropertyValue := fun tv key _ =>
    if tv.type = "Patient" ∧ key = "id" then
      some (PropValue.single ⟨"id", JsValue.prim "p1"⟩)
    else if tv.type = "Patient" ∧ key = "name" then
      some (PropValue.multiple [⟨"HumanName", JsValue.obj []⟩, ⟨"HumanName", JsValue.obj []⟩])
    else if tv.type = "HumanName" ∧ key = "family" then
      some (PropValue.single ⟨"string", JsValue.prim "Doe"⟩)
    else none

def thingSchema : InternalTypeSchema :=
  { name := "Thing"
    elements := [("id", { path := "Thing.id", type := ["string"], min := 0, max := some 1 })] }

def thingObj : TypedValue := ⟨"Thing", JsValue.obj []⟩

def noneEnv : CrawlEnv := ⟨fun _ => none, fun _ _ _ => none⟩

def basicSchema : InternalTypeSchema := { name := "Basic", elements := [] }

def basicObj : TypedValue := ⟨"Basic", JsValue.obj [("resourceType", JsValue.prim "Basic")]⟩

set_option maxRecDepth 10000

/-- Witness for C1: a completed crawl of the two-key Patient schema fires
`visitProperty` for `id` then `name`, exactly the declared order. -/
theorem visitProperty_once_per_key_witness :
    (crawlObject demoEnv traceVisitor 5 demoObj demoSchema "Patient" []).2 = none ∧
    topVisitKeys (crawlObject demoEnv traceVisitor 5 demoObj demoSchema "Patient" []).1
      = ["id", "name"] :=
  ⟨rfl,
    (visitProperty_once_per_key_in_declared_order demoEnv 5 demoObj demoSchema "Patient"
      rfl).trans rfl⟩

/-- Witness for C2 on the same completed crawl. -/
theorem lifecycle_brackets_balanced_witness :
    (crawlObject demoEnv traceVisitor 5 demoObj demoSchema "Patient" []).2 = none ∧
    isBalanced (crawlObject demoEnv traceVisitor 5 demoObj demoSchema "Patient" []).1 = true :=
  ⟨rfl, lifecycle_brackets_balanced demoEnv 5 demoObj demoSchema "Patient" rfl⟩

/-- Witness for the amended C3: the forbidden (`max = 0`) key of `schemaC3`
is visited like any other. -/
theorem maxZero_key_visited_witness :
    ("forbidden", forbiddenEl) ∈ schemaC3.elements ∧
    forbiddenEl.max = some 0 ∧
    (crawlObject envC3 traceVisitor 3 objC3 schemaC3 "Extent" []).2 = none ∧
    Event.visitProp objC3 "forbidden" ("Extent" ++ "." ++ "forbidden")
        (getNestedProperty envC3 objC3 "forbidden" none)
      ∈ (crawlObject envC3 traceVisitor 3 objC3 schemaC3 "Extent" []).1 :=
  ⟨List.mem_cons_self _ _, rfl, rfl,
    maxZero_key_visited_like_any_other envC3 3 objC3 schemaC3 "Extent" "forbidden" forbiddenEl
      (List.mem_cons_self _ _) rfl rfl⟩

/-- Witness for C4 at the root object of a concrete crawl. -/
theorem primitive_values_never_entered_witness :
    Event.enterObject "Thing" thingObj
        ∈ (crawlObject noneEnv traceVisitor 1 thingObj thingSchema "Thing" []).1 ∧
    (thingObj = thingObj ∨ firstCharLower thingObj.type = false) := by
  have hmem : Event.enterObject "Thing" thingObj
      ∈ (crawlObject noneEnv traceVisitor 1 thingObj thingSchema "Thing" []).1 := by
    have h : (crawlObject noneEnv traceVisitor 1 thingObj thingSchema "Thing" []).1
        = [Event.enterObject "Thing" thingObj,
           Event.visitProp thingObj "id" "Thing.id" [none],
           Event.exitObject "Thing" thingObj] := rfl
    rw [h]
    exact List.mem_cons_self _ _
  exact ⟨hmem,
    primitive_values_never_entered noneEnv 1 thingObj thingSchema "Thing" "Thing" thingObj hmem⟩

/-- Witness for C6: with a budget of one callback, the crawl performs
exactly the first callback of the normal run and aborts with the thrown
error itself. -/
theorem visitor_error_aborts_witness :
    1 < (crawlObject noneEnv traceVisitor 1 thingObj thingSchema "Thing" []).1.length ∧
    crawlObject noneEnv (throwingVisitor "boom") 1 thingObj thingSchema "Thing" (1, [])
      = ((0, (crawlObject noneEnv traceVisitor 1 thingObj thingSchema "Thing" []).1.take 1),
          some (CrawlErr.visitorError "boom")) :=
  ⟨by decide,
    visitor_error_aborts_and_propagates noneEnv 1 thingObj thingSchema "Thing" "boom" 1
      (by decide)⟩

/-- Witness for C7: the `id` property of `thingObj` resolves to `undefined`;
`visitProperty` still fires once with the raw (all-`undefined`) list and
nothing else happens. -/
theorem missing_property_witness :
    (∀ pv ∈ getNestedProperty noneEnv thingObj "id" none, pv = none) ∧
    crawlProperty noneEnv traceVisitor 1 thingObj "id" thingSchema "Thing.id" []
      = ([Event.visitProp thingObj "id" "Thing.id"
            (getNestedProperty noneEnv thingObj "id" none)], none) := by
  have h : ∀ pv ∈ getNestedProperty noneEnv thingObj "id" none, pv = none := by
    intro pv hpv
    have heq : getNestedProperty noneEnv thingObj "id" none = [none] := rfl
    rw [heq] at hpv
    simpa using hpv
  exact ⟨h, missing_property_no_descent noneEnv 1 thingObj "id" thingSchema "Thing.id" h⟩

/-- Witness for C8 at a concrete `visitProperty` invocation. -/
theorem visitProperty_raw_resolution_witness :
    Event.visitProp thingObj "id" "Thing.id" [none]
        ∈ (crawlObject noneEnv traceVisitor 1 thingObj thingSchema "Thing" []).1 ∧
    ([none] : List PropElem) = getNestedProperty noneEnv thingObj "id" none := by
  have hmem : Event.visitProp thingObj "id" "Thing.id" [none]
      ∈ (crawlObject noneEnv traceVisitor 1 thingObj thingSchema "Thing" []).1 := by
    have h : (crawlObject noneEnv traceVisitor 1 thingObj thingSchema "Thing" []).1
        = [Event.enterObject "Thing" thingObj,
           Event.visitProp thingObj "id" "Thing.id" [none],
           Event.exitObject "Thing" thingObj] := rfl
    rw [h]
    exact List.mem_cons_of_mem _ (List.mem_cons_self _ _)
  exact ⟨hmem,
    visitProperty_receives_raw_resolution noneEnv 1 thingObj thingSchema "Thing"
      thingObj "id" "Thing.id" [none] hmem⟩

/-- Witness for C10: the resource-typed root of a concrete crawl receives
`onEnterResource`, and the discriminator holds for it. -/
theorem resource_callbacks_witness :
    Event.enterResource "Basic" basicObj
        ∈ (crawlObject noneEnv traceVisitor 1 basicObj basicSchema "Basic" []).1 ∧
    isResource basicObj.value = true := by
  have hmem : Event.enterResource "Basic" basicObj
      ∈ (crawlObject noneEnv traceVisitor 1 basicObj basicSchema "Basic" []).1 := by
    have h : (crawlObject noneEnv traceVisitor 1 basicObj basicSchema "Basic" []).1
        = [Event.enterResource "Basic" basicObj,
           Event.enterObject "Basic" basicObj,
           Event.exitObject "Basic" basicObj,
           Event.exitResource "Basic" basicObj] := rfl
    rw [h]
    exact List.mem_cons_self _ _
  exact ⟨hmem,
    (resource_callbacks_iff_isResource noneEnv 1 basicObj basicSchema "Basic").1
      "Basic" basicObj hmem⟩
